import Mathlib

/-!
Verification development for the renju-board repository.

The core of the repository is `src/lib/board/evaluator.rs`: the function
`BoardArr::renju_conditions` classifies threats (fives, fours, threes) on a
renju board and computes the forbidden points for Black (overline, double-four
and conditional double-three bans).  This file gives a shallow embedding of
that algorithm, of the RenLib file-header validation in
`src/lib/file_reader/renlib.rs`, and of the legacy line scanner in
`src/lib/evaluator.rs`, and proves or refutes the specification claims about
them.

Conventions of the embedding:
* machine integers (`u32`, `u8`) are modelled as `Nat`; no arithmetic here can
  overflow at the values the program uses;
* `BTreeSet`/`BTreeMap` are modelled as duplicate-free lists / association
  lists with membership-based insertion: the algorithm only ever uses
  cardinality, membership and iteration whose effects are order-independent;
* the recursive double-three resolution is given a fuel parameter; the
  canonical entry point supplies ample fuel (the recursion of the source adds
  one stone per nesting level, so its depth is bounded by the cell count).
-/

set_option autoImplicit false

namespace Renju

/-- Stone values of an intersection (`board_logic`/`board` module, used
throughout the evaluator). -/
inductive Stone where
  | empty
  | black
  | white
deriving DecidableEq, Repr

def Stone.is_empty : Stone → Bool
  | .empty => true
  | _ => false

def Stone.is_black : Stone → Bool
  | .black => true
  | _ => false

def Stone.is_white : Stone → Bool
  | .white => true
  | _ => false

/-- Modelled from the spec: `opposite()` maps Black to White and back and is
identity on Empty (the board module carrying `Stone::opposite` is not part of
the sources at hand). -/
def Stone.opposite : Stone → Stone
  | .black => .white
  | .white => .black
  | .empty => .empty

/-- Modelled from the spec: a `Point` is an integer coordinate pair together
with a distinguished null marker used for absent/border positions (the board
module defining `Point` is not part of the sources at hand; the evaluator
uses fields `x`, `y`, `is_null` and constructors `Point::new`/`Point::null`). -/
structure Point where
  x : Nat
  y : Nat
  is_null : Bool
deriving DecidableEq, Repr

def Point.new (x y : Nat) : Point := ⟨x, y, false⟩

/-- The `NULL_POINT` sentinel of `renju_conditions` (x: 0, y: 0, is_null: true). -/
def nullPoint : Point := ⟨0, 0, true⟩

/-- Modelled from the spec: a point is a real board intersection when it is
not null and both coordinates lie in `[0, size)`.  The source's
`Point::is_valid` lives in the missing board module; `get_line` stops the
line walk at the first invalid point. -/
def Point.isValid (size : Nat) (p : Point) : Bool :=
  !p.is_null && decide (p.x < size) && decide (p.y < size)

/-- Line directions of the board evaluator (`Direction` in
`board/evaluator.rs`); `diagonal true` is the `/` family (`bottom: true`),
`diagonal false` the `\` family. -/
inductive Direction where
  | horizontal
  | vertical
  | diagonal (bottom : Bool)
deriving DecidableEq, Repr

/-- The `RenjuCondition` enum: a shape together with the empty placement
point completing it.  Fixed-size stone arrays of the source are lists whose
lengths are fixed at every construction site. -/
inductive RenjuCondition where
  | unbrokenThree (direction : Direction) (stones : List Point) (place : Point)
  | brokenThree (direction : Direction) (stones : List Point) (place : Point)
  | straightFour (direction : Direction) (stones : List Point) (place : Point)
  | closedFour (direction : Direction) (stones : List Point) (place : Point)
  | brokenFour (direction : Direction) (stones : List Point) (place : Point)
  | five (direction : Direction) (stones : List Point) (place : Point)
deriving DecidableEq, Repr

namespace RenjuCondition

def stones : RenjuCondition → List Point
  | .unbrokenThree _ s _ => s
  | .brokenThree _ s _ => s
  | .straightFour _ s _ => s
  | .closedFour _ s _ => s
  | .brokenFour _ s _ => s
  | .five _ s _ => s

def place : RenjuCondition → Point
  | .unbrokenThree _ _ p => p
  | .brokenThree _ _ p => p
  | .straightFour _ _ p => p
  | .closedFour _ _ p => p
  | .brokenFour _ _ p => p
  | .five _ _ p => p

def isFive : RenjuCondition → Bool
  | .five _ _ _ => true
  | _ => false

def isStraightFour : RenjuCondition → Bool
  | .straightFour _ _ _ => true
  | _ => false

def isFourShape : RenjuCondition → Bool
  | .straightFour _ _ _ => true
  | .closedFour _ _ _ => true
  | .brokenFour _ _ _ => true
  | _ => false

def isThreeShape : RenjuCondition → Bool
  | .unbrokenThree _ _ _ => true
  | .brokenThree _ _ _ => true
  | _ => false

end RenjuCondition

/-- Result bundle of one evaluation (`RenjuConditions` in the source). -/
structure RenjuConditions where
  conditions : List RenjuCondition
  forbidden : List Point
  threes : List (RenjuCondition × Point)
deriving DecidableEq, Repr

/-- Modelled from the spec: the board is a mapping from every in-range point
to a stone (the `BoardArr` container lives in the missing board module).  The
association list records explicitly placed stones; unlisted cells are empty,
matching the invariant that every coordinate has exactly one stone value. -/
structure BoardArr where
  size : Nat
  cells : List (Point × Stone)
deriving DecidableEq, Repr

def BoardArr.getStone (b : BoardArr) (p : Point) : Stone :=
  match b.cells.find? (fun c => c.1 = p) with
  | some c => c.2
  | none => .empty

def BoardArr.setPoint (b : BoardArr) (p : Point) (s : Stone) : BoardArr :=
  ⟨b.size, (p, s) :: b.cells⟩

/-- One step of the line walk of `get_line`: the candidate point at offset
`count` from the start, `none` when `checked_sub` on the `/` diagonal
underflows. -/
def lineStep (d : Direction) (start : Point) (count : Nat) : Option Point :=
  match d with
  | .horizontal => some (Point.new (start.x + count) start.y)
  | .vertical => some (Point.new start.x (start.y + count))
  | .diagonal true =>
      if count ≤ start.y then some (Point.new (start.x + count) (start.y - count))
      else none
  | .diagonal false => some (Point.new (start.x + count) (start.y + count))

/-- The `std::iter::from_fn` walk of `get_line`: emit points while they stay
valid; the fuel always exceeds the number of valid steps. -/
def genLine (size : Nat) (d : Direction) (start : Point) : Nat → Nat → List Point
  | 0, _ => []
  | fuel + 1, count =>
    match lineStep d start count with
    | none => []
    | some p => if p.isValid size then p :: genLine size d start fuel (count + 1) else []

/-- The start-of-line computation of `get_line` (the number of steps walked
back is the returned index of the queried point). -/
def lineIdx (size : Nat) (d : Direction) (p : Point) : Nat :=
  match d with
  | .horizontal => p.x
  | .vertical => p.y
  | .diagonal true => min p.x (size - 1 - p.y)
  | .diagonal false => min p.x p.y

def lineStart (size : Nat) (d : Direction) (p : Point) : Point :=
  match d with
  | .horizontal => Point.new 0 p.y
  | .vertical => Point.new p.x 0
  | .diagonal true => Point.new (p.x - lineIdx size d p) (p.y + lineIdx size d p)
  | .diagonal false => Point.new (p.x - lineIdx size d p) (p.y - lineIdx size d p)

/-- `BoardArr::get_line`: the index of the queried point in the line and the
full line through it, from edge to edge. -/
def BoardArr.get_line (b : BoardArr) (d : Direction) (p : Point) : Nat × List Point :=
  (lineIdx b.size d p, genLine b.size d (lineStart b.size d p) (b.size + 1) 0)

/-- `BoardArr::all_lines`: all horizontal rows, all vertical columns and both
diagonal families (each diagonal family enumerated from the left column and
from the right border as in the source). -/
def BoardArr.all_lines (b : BoardArr) : List (Direction × List Point) :=
  ((List.range b.size).map fun y =>
    (Direction.horizontal, (b.get_line .horizontal (Point.new 0 y)).2))
  ++ ((List.range b.size).map fun x =>
    (Direction.vertical, (b.get_line .vertical (Point.new x 0)).2))
  ++ ((List.range b.size).foldr (fun i acc =>
      (Direction.diagonal true, (b.get_line (.diagonal true) (Point.new 0 i)).2)
      :: (Direction.diagonal true, (b.get_line (.diagonal true) (Point.new b.size i)).2)
      :: acc) [])
  ++ ((List.range b.size).foldr (fun i acc =>
      (Direction.diagonal false,
        (b.get_line (.diagonal false) (Point.new 0 (b.size - 1 - i))).2)
      :: (Direction.diagonal false,
        (b.get_line (.diagonal false) (Point.new b.size (b.size - 1 - i))).2)
      :: acc) [])

/-- Cell classification relative to the queried stone (`enum S` local to
`renju_conditions`). -/
inductive S where
  | same
  | notSame
  | emptyCell
  | border
deriving DecidableEq, Repr

/-- Matches `Empty | NotSame | Border`, the guard used throughout the window
patterns. -/
def S.isENB : S → Bool
  | .same => false
  | _ => true

/-- Classification of one real cell, mirroring the `if` chain in
`renju_conditions` (empty first, then same-colored, else other color). -/
def classifyCell (stone : Stone) (c : Stone) : S :=
  if c.is_empty then .emptyCell else if c = stone then .same else .notSame

/-- The classified, border-padded lines (`lines` in `renju_conditions`):
each line of `all_lines` mapped to `(classification, point)` pairs with two
border sentinels on each side. -/
def classifiedLines (b : BoardArr) (stone : Stone) : List (Direction × List (S × Point)) :=
  b.all_lines.map fun dl =>
    (dl.1,
      [((S.border), nullPoint), ((S.border), nullPoint)]
      ++ dl.2.map (fun p => (classifyCell stone (b.getStone p), p))
      ++ [((S.border), nullPoint), ((S.border), nullPoint)])

/-- Sliding windows of width `k` (`slice::windows`). -/
def windows {α : Type} (k : Nat) (l : List α) : List (List α) :=
  (List.range (l.length + 1 - k)).map fun i => (l.drop i).take k

/-- Membership-based insertion: the effect of `BTreeSet::insert` up to
element order. -/
def insertOnce {α : Type} [DecidableEq α] (a : α) (l : List α) : List α :=
  if a ∈ l then l else l ++ [a]

/-- Insertion into a map of sets: the effect of
`map.entry(k).or_insert_with(BTreeSet::new).insert(v)` up to order. -/
def mapInsert {α : Type} [DecidableEq α] (k : Point) (v : α) :
    List (Point × List α) → List (Point × List α)
  | [] => [(k, [v])]
  | e :: rest =>
    if e.1 = k then (e.1, insertOnce v e.2) :: rest else e :: mapInsert k v rest

/-- Lookup in such a map; `mapGroup` returns the group of a key. -/
def mapGroup {α : Type} (k : Point) (m : List (Point × List α)) : Option (List α) :=
  (m.find? (fun kv => kv.1 = k)).map (fun kv => kv.2)

/-- The restriction filter applied per window: process the window unless an
`only_including` list is supplied and no window point belongs to it. -/
def touches (only : Option (List Point)) (w : List (S × Point)) : Bool :=
  match only with
  | none => true
  | some o => w.any fun e => decide (e.2 ∈ o)

/-- One 7-wide window of the five scan (the `checking fives` loop): the two
patterns `%XXXX_%` and `%_XXXX%`, with Black's overline exclusion on the
cells beyond the window core. -/
def fivesStep (stone : Stone) (d : Direction)
    (acc : List RenjuCondition × List Point) (w : List (S × Point)) :
    List RenjuCondition × List Point :=
  match w with
  | [(left, _), (.same, s0), (.same, s1), (.same, s2), (.same, s3), (.emptyCell, s4), (right, _)] =>
    if stone.is_black ∧ (right = .same ∨ left = .same) then acc
    else (insertOnce (.five d [s0, s1, s2, s3, s4] s4) acc.1, insertOnce s4 acc.2)
  | [(left, _), (.emptyCell, s0), (.same, s1), (.same, s2), (.same, s3), (.same, s4), (right, _)] =>
    if stone.is_black ∧ (left = .same ∨ right = .same) then acc
    else (insertOnce (.five d [s0, s1, s2, s3, s4] s0) acc.1, insertOnce s0 acc.2)
  | _ => acc

def fivesScan (stone : Stone) (lines : List (Direction × List (S × Point))) :
    List RenjuCondition × List Point :=
  lines.foldl (fun acc dl => (windows 7 dl.2).foldl (fivesStep stone dl.1) acc) ([], [])

/-- One 6-wide window of the overline scan: an empty cell together with five
same-colored cells is a forbidden placement for Black. -/
def overlineStep (acc : List Point) (w : List (S × Point)) : List Point :=
  match w with
  | [(.emptyCell, f), (.same, _), (.same, _), (.same, _), (.same, _), (.same, _)] => insertOnce f acc
  | [(.same, _), (.emptyCell, f), (.same, _), (.same, _), (.same, _), (.same, _)] => insertOnce f acc
  | [(.same, _), (.same, _), (.emptyCell, f), (.same, _), (.same, _), (.same, _)] => insertOnce f acc
  | [(.same, _), (.same, _), (.same, _), (.emptyCell, f), (.same, _), (.same, _)] => insertOnce f acc
  | [(.same, _), (.same, _), (.same, _), (.same, _), (.emptyCell, f), (.same, _)] => insertOnce f acc
  | [(.same, _), (.same, _), (.same, _), (.same, _), (.same, _), (.emptyCell, f)] => insertOnce f acc
  | _ => acc

/-- The `checking overlines` loop, guarded by `stone.is_black()`. -/
def overlineScan (stone : Stone) (lines : List (Direction × List (S × Point))) : List Point :=
  if stone.is_black then
    lines.foldl (fun acc dl => (windows 6 dl.2).foldl overlineStep acc) []
  else []

/-- One 7-wide window of the four scan (the `checking fours` loop).  Each of
the four patterns may record a straight/closed four at the adjacent gap and a
broken four at the distant gap, keyed by placement point; placements already
forbidden (overlines) are dropped. -/
def foursStep (stone : Stone) (only : Option (List Point)) (forb : List Point) (d : Direction)
    (m : List (Point × List RenjuCondition)) (w : List (S × Point)) :
    List (Point × List RenjuCondition) :=
  if touches only w then
    match w with
    | [(left, _), (.emptyCell, s0), (.emptyCell, s1), (.same, s2), (.same, s3), (.same, s4), (right, _)] =>
      if right.isENB then
        let m1 := if s1 ∉ forb then
            mapInsert s1 (if right = .emptyCell then .straightFour d [s1, s2, s3, s4] s1
                          else .closedFour d [s1, s2, s3, s4] s1) m
          else m
        if s0 ∉ forb ∧ left.isENB then
          mapInsert s0 (.brokenFour d [s0, s1, s2, s3, s4] s0) m1
        else m1
      else m
    | [(left, _), (.same, s1), (.same, s2), (.same, s3), (.emptyCell, s4), (.emptyCell, s5), (right, _)] =>
      if left.isENB then
        let m1 := if s4 ∉ forb then
            mapInsert s4 (if left = .emptyCell then .straightFour d [s1, s2, s3, s4] s4
                          else .closedFour d [s1, s2, s3, s4] s4) m
          else m
        if s5 ∉ forb ∧ right.isENB then
          mapInsert s5 (.brokenFour d [s1, s2, s3, s4, s5] s5) m1
        else m1
      else m
    | [(left, _), (.emptyCell, s0), (.same, s1), (.emptyCell, s2), (.same, s3), (.same, s4), (right, _)] =>
      if right.isENB then
        let m1 := if s2 ∉ forb then
            mapInsert s2 (if right = .emptyCell then .straightFour d [s1, s2, s3, s4] s2
                          else .closedFour d [s1, s2, s3, s4] s2) m
          else m
        if s0 ∉ forb ∧ left.isENB then
          mapInsert s0 (.brokenFour d [s0, s1, s2, s3, s4] s0) m1
        else m1
      else m
    | [(left, _), (.same, s1), (.same, s2), (.emptyCell, s3), (.same, s4), (.emptyCell, s5), (right, _)] =>
      if left.isENB then
        let m1 := if s3 ∉ forb then
            mapInsert s3 (if left = .emptyCell then .straightFour d [s1, s2, s3, s4] s3
                          else .closedFour d [s1, s2, s3, s4] s3) m
          else m
        if s5 ∉ forb ∧ right.isENB then
          mapInsert s5 (.brokenFour d [s1, s2, s3, s4, s5] s5) m1
        else m1
      else m
    | _ => m
  else m

def foursScan (stone : Stone) (only : Option (List Point)) (forb : List Point)
    (lines : List (Direction × List (S × Point))) : List (Point × List RenjuCondition) :=
  lines.foldl (fun m dl => (windows 7 dl.2).foldl (foursStep stone only forb dl.1) m) []

/-- The loop over the accumulated four groups: for Black a placement with more
than one distinct four shape becomes forbidden (double-four), otherwise the
group's conditions are reported. -/
def applyFours (stone : Stone) (m : List (Point × List RenjuCondition))
    (forb : List Point) (conds : List RenjuCondition) : List Point × List RenjuCondition :=
  m.foldl (fun acc kv =>
    if stone.is_black ∧ kv.2.length > 1 then (insertOnce kv.1 acc.1, acc.2)
    else (acc.1, kv.2.foldl (fun cs c => insertOnce c cs) acc.2)) (forb, conds)

/-- One 9-wide window of the three scan (the `checking threes` loop), with the
source's inner `(left, right)` matches including the `eh_case` exclusions and
the fall-through to the unbroken-three insertion. -/
def threesStep (stone : Stone) (only : Option (List Point)) (forb : List Point)
    (fives : List Point) (d : Direction)
    (m : List (Point × List (RenjuCondition × Point))) (w : List (S × Point)) :
    List (Point × List (RenjuCondition × Point)) :=
  if touches only w then
    match w with
    | [(left, _), (.emptyCell, _t1), (.emptyCell, s2), (.emptyCell, s3), (.same, s4), (.same, s5),
       (.emptyCell, _t6), (right, _), (eh, _)] =>
      let u3 := fun (mm : List (Point × List (RenjuCondition × Point))) =>
        if s3 ∉ forb ∧ s3 ∉ fives ∧ s2 ∉ fives then
          mapInsert s3 (RenjuCondition.unbrokenThree d [s3, s4, s5] s3, s2) mm
        else mm
      let b3 := fun (mm : List (Point × List (RenjuCondition × Point))) =>
        if s2 ∉ forb ∧ s2 ∉ fives ∧ s3 ∉ fives then
          mapInsert s2 (RenjuCondition.brokenThree d [s2, s3, s4, s5] s2, s3) mm
        else mm
      if right = .same then m
      else if left = .same then
        (if stone.is_black ∧ eh = .same then m else u3 m)
      else u3 (b3 m)
    | [(eh, _), (left, _), (.emptyCell, _t1), (.same, s2), (.same, s3), (.emptyCell, s4),
       (.emptyCell, s5), (.emptyCell, _t6), (right, _)] =>
      let u3 := fun (mm : List (Point × List (RenjuCondition × Point))) =>
        if s4 ∉ forb ∧ s4 ∉ fives ∧ s5 ∉ fives then
          mapInsert s4 (RenjuCondition.unbrokenThree d [s2, s3, s4] s4, s5) mm
        else mm
      let b3 := fun (mm : List (Point × List (RenjuCondition × Point))) =>
        if s5 ∉ forb ∧ s5 ∉ fives ∧ s4 ∉ fives then
          mapInsert s5 (RenjuCondition.brokenThree d [s2, s3, s4, s5] s5, s4) mm
        else mm
      if left = .same then m
      else if right = .same then
        (if stone.is_black ∧ eh = .same then m else u3 m)
      else u3 (b3 m)
    | [(left, _), (.emptyCell, _t1), (.emptyCell, s2), (.same, s3), (.emptyCell, s4), (.same, s5),
       (.emptyCell, _t6), (right, _), _] =>
      let u3 := fun (mm : List (Point × List (RenjuCondition × Point))) =>
        if s4 ∉ forb ∧ s4 ∉ fives ∧ s2 ∉ fives then
          mapInsert s4 (RenjuCondition.unbrokenThree d [s3, s4, s5] s4, s2) mm
        else mm
      let b3 := fun (mm : List (Point × List (RenjuCondition × Point))) =>
        if s2 ∉ forb ∧ s2 ∉ fives ∧ s4 ∉ fives then
          mapInsert s2 (RenjuCondition.brokenThree d [s2, s3, s4, s5] s2, s4) mm
        else mm
      if right = .same then m
      else if left = .same then u3 m
      else u3 (b3 m)
    | [(left, _), (.emptyCell, _t1), (.same, s2), (.emptyCell, s3), (.same, s4), (.emptyCell, s5),
       (.emptyCell, _t6), (right, _), _] =>
      let u3 := fun (mm : List (Point × List (RenjuCondition × Point))) =>
        if s3 ∉ forb ∧ s3 ∉ fives ∧ s5 ∉ fives then
          mapInsert s3 (RenjuCondition.unbrokenThree d [s2, s3, s4] s3, s5) mm
        else mm
      let b3 := fun (mm : List (Point × List (RenjuCondition × Point))) =>
        if s5 ∉ forb ∧ s5 ∉ fives ∧ s4 ∉ fives then
          mapInsert s5 (RenjuCondition.brokenThree d [s2, s3, s4, s5] s5, s4) mm
        else mm
      if left = .same then m
      else if right = .same then u3 m
      else u3 (b3 m)
    | [(g1, _), (.emptyCell, _t2), (.same, s3), (.emptyCell, s4), (.emptyCell, s5), (.same, s6),
       (.emptyCell, _t7), (g8, _), _] =>
      if g1.isENB ∧ g8.isENB then
        let mA := if s4 ∉ forb ∧ s4 ∉ fives ∧ s5 ∉ fives then
            mapInsert s4 (RenjuCondition.brokenThree d [s3, s4, s5, s6] s4, s5) m
          else m
        if s5 ∉ forb ∧ s5 ∉ fives ∧ s4 ∉ fives then
          mapInsert s5 (RenjuCondition.brokenThree d [s3, s4, s5, s6] s5, s4) mA
        else mA
      else m
    | _ => m
  else m

def threesScan (stone : Stone) (only : Option (List Point)) (forb : List Point)
    (fives : List Point) (lines : List (Direction × List (S × Point))) :
    List (Point × List (RenjuCondition × Point)) :=
  lines.foldl (fun m dl => (windows 9 dl.2).foldl (threesStep stone only forb fives dl.1) m) []

/-- The distinct three rows of a candidate placement (`three_row` in the
source, built from the condition components of the pairs). -/
def threeRows (v : List (RenjuCondition × Point)) : List RenjuCondition :=
  (v.map Prod.fst).foldl (fun acc c => insertOnce c acc) []

/-- One entry of the double-three resolution loop (RIF rule 9.3 in the
source): a Black candidate with more than one distinct three row is checked
via `allowed_fours` and, recursively on the hypothetical board, via
`allowed_threes`; anything else just reports its three conditions. -/
def resolveEntry (recur : BoardArr → Stone → Option (List Point) → RenjuConditions)
    (b : BoardArr) (stone : Stone) (forb : List Point)
    (acc : List RenjuCondition × List Point)
    (kv : Point × List (RenjuCondition × Point)) :
    List RenjuCondition × List Point :=
  let k := kv.1
  let v := kv.2
  if stone.is_black ∧ (threeRows v).length > 1 then
    let allowedFours := (v.filter fun cf => decide (cf.2 ∉ forb)).length
    if allowedFours > 1 then
      let newBoard := b.setPoint k stone
      let allowedThrees := v.foldl (fun (n : Nat) cf =>
        let nc := recur newBoard stone (some [k, cf.2])
        if ((nc.conditions.filter fun c =>
              c.isStraightFour && decide (k ∈ c.stones)).filter fun c =>
              decide (c.place ∉ nc.forbidden)).length > 1 then n
        else if cf.2 ∈ nc.forbidden then n - 1 else n) v.length
      if allowedThrees > 1 then (acc.1, insertOnce k acc.2) else acc
    else acc
  else (v.foldl (fun cs cf => insertOnce cf.1 cs) acc.1, acc.2)

/-- The body of `renju_conditions` with the recursive self-call abstracted:
five scan, overline scan, four scan and double-four application, three scan,
double-three resolution, and assembly of the result bundle.  The source's
`assert!` statements are invariants proved below, not embedded effects. -/
def renjuBody (recur : BoardArr → Stone → Option (List Point) → RenjuConditions)
    (b : BoardArr) (stone : Stone) (only : Option (List Point)) : RenjuConditions :=
  let lines := classifiedLines b stone
  let fv := fivesScan stone lines
  let forb1 := overlineScan stone lines
  let fm := foursScan stone only forb1 lines
  let fc := applyFours stone fm forb1 fv.1
  let tm := threesScan stone only fc.1 fv.2 lines
  let rc := tm.foldl (resolveEntry recur b stone fc.1) (fc.2, [])
  { conditions := rc.1
    forbidden := rc.2.foldl (fun f p => insertOnce p f) fc.1
    threes := tm.foldl (fun acc kv => kv.2.foldl (fun a cp => insertOnce cp a) acc) [] }

/-- Fuel-indexed `renju_conditions`; the recursion of the source adds a stone
per nesting level, so any fuel beyond the number of cells is ample. -/
def renjuConditionsF : Nat → BoardArr → Stone → Option (List Point) → RenjuConditions
  | 0, b, stone, only => renjuBody (fun _ _ _ => ⟨[], [], []⟩) b stone only
  | fuel + 1, b, stone, only => renjuBody (renjuConditionsF fuel) b stone only

/-- `BoardArr::renju_conditions` with ample fuel. -/
def BoardArr.renju_conditions (b : BoardArr) (stone : Stone)
    (only : Option (List Point)) : RenjuConditions :=
  renjuConditionsF (b.size * b.size + 1) b stone only

/-! RenLib file-format handling (`src/lib/file_reader/renlib.rs`).  Bytes are
modelled as `Nat`; the functions below do no arithmetic that could overflow a
`u8` beyond what the source itself computes. -/

/-- Library format versions (`Version` in `renlib.rs`; the reserved extension
variant mirrors `_extended`). -/
inductive Version where
  | V30
  | V34
  | extendedReserved
deriving DecidableEq, Repr

/-- Error taxonomy of the parser (`ParseError` lives in the missing `errors`
module; the variants and payloads used by `renlib.rs` are `NotSupported`,
`VersionNotSupported { majv, minv }` and `Other(String)`, matching the spec's
taxonomy of unsupported-format / unsupported-version / other). -/
inductive ParseError where
  | notSupported
  | versionNotSupported (majv minv : Nat)
  | other (msg : String)
deriving DecidableEq, Repr

deriving instance DecidableEq for Except

/-- The 20-byte RenLib header with magic bytes and a version byte pair. -/
def magicHeader (majv minv : Nat) : List Nat :=
  [0xff, 0x52, 0x65, 0x6e, 0x4c, 0x69, 0x62, 0xff, majv, minv,
   0xff, 0xff, 0xff, 0xff, 0xff, 0xff, 0xff, 0xff, 0xff, 0xff]

/-- `validate_lib`: match the header against the RenLib magic pattern and
dispatch on the version byte pair.  The source's 20-byte slice pattern with
embedded byte literals is rendered as a 20-element match plus equality tests,
and its version-pair literal match as the corresponding equality chain. -/
def validateLib (header : List Nat) : Except ParseError Version :=
  match header with
  | [b0, b1, b2, b3, b4, b5, b6, b7, majv, minv,
     b10, b11, b12, b13, b14, b15, b16, b17, b18, b19] =>
    if b0 = 0xff ∧ b1 = 0x52 ∧ b2 = 0x65 ∧ b3 = 0x6e ∧ b4 = 0x4c ∧ b5 = 0x69 ∧ b6 = 0x62
        ∧ b7 = 0xff ∧ b10 = 0xff ∧ b11 = 0xff ∧ b12 = 0xff ∧ b13 = 0xff ∧ b14 = 0xff
        ∧ b15 = 0xff ∧ b16 = 0xff ∧ b17 = 0xff ∧ b18 = 0xff ∧ b19 = 0xff then
      if majv = 3 ∧ minv = 0 then .ok .V30
      else if majv = 3 ∧ minv = 4 then .ok .V34
      else .error (.versionNotSupported majv minv)
    else .error .notSupported
  | _ => .error .notSupported

/-- `byte_to_point`: `checked_sub(1)` fails exactly on byte `0`, then the low
nibble of the decremented byte gives `x` and the high nibble of the original
byte gives `y`. -/
def byteToPoint (byte : Nat) : Except ParseError Point :=
  if byte = 0 then .error (.other "Underflowed position")
  else .ok (Point.new ((byte - 1) &&& 0x0f) (byte >>> 4))

/-- The coordinate handling of the record loop in `parse_v3x`
(`renlib.rs`): a coordinate byte that fails to decode (the reserved `0x00`)
becomes the null point. -/
def recordPoint (byte : Nat) : Point :=
  match byteToPoint byte with
  | .ok p => p
  | .error _ => nullPoint

/-! The legacy evaluator (`src/lib/evaluator.rs`): the free function `line`
scans outward from a marker and collects same-colored stone offsets. -/

namespace Legacy

/-- Directions of the legacy evaluator (its own `Direction` enum, with an
`AntiDiagonal` variant the function does not handle). -/
inductive Direction where
  | horizontal
  | vertical
  | diagonal
  | antiDiagonal
deriving DecidableEq, Repr

/-- Modelled from the spec: the legacy `Board` (`board_logic` module, not in
the sources at hand) maps every in-range coordinate to exactly one stone;
`getxy`/`get_i32xy` return `None` outside the board. -/
structure Board where
  boardsize : Nat
  cells : List (Point × Stone)
deriving DecidableEq, Repr

def Board.stoneAt (b : Board) (x y : Nat) : Stone :=
  match b.cells.find? (fun c => c.1 = Point.new x y) with
  | some c => c.2
  | none => .empty

/-- Modelled from the spec: grid lookup with signed coordinates
(`get_i32xy`; `getxy` is the restriction to naturals). -/
def Board.getIxy (b : Board) (x y : Int) : Option Stone :=
  if 0 ≤ x ∧ x < (b.boardsize : Int) ∧ 0 ≤ y ∧ y < (b.boardsize : Int) then
    some (b.stoneAt x.toNat y.toNat)
  else none

/-- Modelled from the spec: a marker is a point with a stone color
(`BoardMarker` of the missing `board_logic` module). -/
structure BoardMarker where
  point : Point
  color : Stone
deriving DecidableEq, Repr

/-- The legacy `Line`: a set of signed offsets plus the origin marker. -/
structure Line where
  offsets : List Int
  origin : BoardMarker
deriving DecidableEq, Repr

/-- One scan arm of `line` over precomputed `(x, y, offset)` cells: push the
offset on a same-colored cell, stop on the opposite color or the border,
skip empty cells. -/
def collect (b : Board) (color : Stone) : List (Int × Int × Int) → List Int
  | [] => []
  | c :: rest =>
    match b.getIxy c.1 c.2.1 with
    | none => []
    | some oc =>
      if oc = color then c.2.2 :: collect b color rest
      else if oc = color.opposite then []
      else collect b color rest

/-- Cells visited by the `'right` loop (`marker.point.x+1 ..= boardsize`). -/
def rightCells (b : Board) (m : BoardMarker) : List (Int × Int × Int) :=
  (List.range' (m.point.x + 1) (b.boardsize + 1 - (m.point.x + 1))).map
    fun i => ((i : Int), ((m.point.y : Int), (i : Int) - (m.point.x : Int)))

/-- Cells visited by the `'left` loop (`(0 ..= marker.point.x).rev()`). -/
def leftCells (m : BoardMarker) : List (Int × Int × Int) :=
  ((List.range (m.point.x + 1)).reverse).map
    fun i => ((i : Int), ((m.point.y : Int), (i : Int) - (m.point.x : Int)))

/-- Cells visited by the `'down` loop. -/
def downCells (b : Board) (m : BoardMarker) : List (Int × Int × Int) :=
  (List.range' (m.point.y + 1) (b.boardsize + 1 - (m.point.y + 1))).map
    fun i => (((m.point.x : Int), ((i : Int), (i : Int) - (m.point.y : Int))))

/-- Cells visited by the `'up` loop (`(0 .. marker.point.y).rev()`, the
marker row itself excluded). -/
def upCells (m : BoardMarker) : List (Int × Int × Int) :=
  ((List.range m.point.y).reverse).map
    fun i => (((m.point.x : Int), ((i : Int), (i : Int) - (m.point.y : Int))))

/-- Cells visited by the `'diag_down` loop (`1 ..= boardsize`). -/
def diagDownCells (b : Board) (m : BoardMarker) : List (Int × Int × Int) :=
  (List.range' 1 b.boardsize).map
    fun i => (((m.point.x : Int) + i, ((m.point.y : Int) + i, (i : Int))))

/-- Cells visited by the `'diag_up` loop. -/
def diagUpCells (b : Board) (m : BoardMarker) : List (Int × Int × Int) :=
  (List.range' 1 b.boardsize).map
    fun i => (((m.point.x : Int) - i, ((m.point.y : Int) - i, -(i : Int))))

/-- The legacy `line` function: reject null markers, scan both arms for the
handled directions, reject `AntiDiagonal` through the catch-all arm. -/
def line (b : Board) (marker : BoardMarker) (direction : Direction) : Except Unit Line :=
  if marker.point.is_null then .error ()
  else
    match direction with
    | .horizontal =>
      .ok ⟨(collect b marker.color (rightCells b marker)
            ++ collect b marker.color (leftCells marker)).foldl
              (fun acc o => insertOnce o acc) [], marker⟩
    | .vertical =>
      .ok ⟨(collect b marker.color (downCells b marker)
            ++ collect b marker.color (upCells marker)).foldl
              (fun acc o => insertOnce o acc) [], marker⟩
    | .diagonal =>
      .ok ⟨(collect b marker.color (diagDownCells b marker)
            ++ collect b marker.color (diagUpCells b marker)).foldl
              (fun acc o => insertOnce o acc) [], marker⟩
    | .antiDiagonal => .error ()

/-- The board cell addressed by an offset along a direction, for stating the
same-color property of the collected offsets. -/
def offsetCell (m : BoardMarker) (d : Direction) (o : Int) : Int × Int :=
  match d with
  | .horizontal => ((m.point.x : Int) + o, (m.point.y : Int))
  | .vertical => ((m.point.x : Int), (m.point.y : Int) + o)
  | .diagonal => ((m.point.x : Int) + o, (m.point.y : Int) + o)
  | .antiDiagonal => (0, 0)

end Legacy

/-! Predicates and concrete positions used by the claim statements. -/

/-- The intersection `i` steps along direction `d` from an anchor, following
the enumeration order of the board's lines (for the `/` family the row index
decreases). -/
def stepPt (d : Direction) (p0 : Point) (i : Nat) : Point :=
  match d with
  | .horizontal => Point.new (p0.x + i) p0.y
  | .vertical => Point.new p0.x (p0.y + i)
  | .diagonal true => Point.new (p0.x + i) (p0.y - i)
  | .diagonal false => Point.new (p0.x + i) (p0.y + i)

/-- Placing Black at the empty point `q` would create six or more Black
stones in a row: six consecutive collinear board intersections consist of `q`
and five Black stones.  For the `/` family the anchor must really allow five
downward row steps, so that truncated subtraction stays geometric. -/
def makesOverline (b : BoardArr) (q : Point) : Prop :=
  b.getStone q = .empty ∧ q.is_null = false ∧
  ∃ d p0, p0.is_null = false ∧ (d = Direction.diagonal true → 5 ≤ p0.y) ∧
    (∀ i, i < 6 → (stepPt d p0 i).isValid b.size = true) ∧
    (∃ j, j < 6 ∧ stepPt d p0 j = q) ∧
    (∀ i, i < 6 → stepPt d p0 i = q ∨ b.getStone (stepPt d p0 i) = .black)

/-- The four-shape accumulator of a Black evaluation: the `fours` map exactly
as it stands after the `checking fours` loop and before the double-four
pass. -/
def fourAccumulator (b : BoardArr) (only : Option (List Point)) :
    List (Point × List RenjuCondition) :=
  foursScan .black only (overlineScan .black (classifiedLines b .black))
    (classifiedLines b .black)

/-- Two points lie on the same line of direction `d` (rows share `y`,
columns share `x`, the `/` family shares `x + y`, the `\` family shares
`x - y`, written cross-wise to stay in `Nat`). -/
def onSameLine (d : Direction) (p q : Point) : Prop :=
  match d with
  | .horizontal => p.y = q.y
  | .vertical => p.x = q.x
  | .diagonal true => p.x + p.y = q.x + q.y
  | .diagonal false => p.x + q.y = q.x + p.y

/-- The board edge a line of direction `d` starts on. -/
def onStartEdge (size : Nat) (d : Direction) (p : Point) : Prop :=
  match d with
  | .horizontal => p.x = 0
  | .vertical => p.y = 0
  | .diagonal true => p.x = 0 ∨ p.y = size - 1
  | .diagonal false => p.x = 0 ∨ p.y = 0

/-- The opposite board edge, where the line ends. -/
def onEndEdge (size : Nat) (d : Direction) (p : Point) : Prop :=
  match d with
  | .horizontal => p.x = size - 1
  | .vertical => p.y = size - 1
  | .diagonal true => p.x = size - 1 ∨ p.y = 0
  | .diagonal false => p.x = size - 1 ∨ p.y = size - 1

/-- Entry-wise invariant of an accumulator map together with distinctness of
its keys. -/
def MapInv {α : Type} (P : Point → α → Prop) (m : List (Point × List α)) : Prop :=
  (∀ kv ∈ m, ∀ x ∈ kv.2, P kv.1 x) ∧ (m.map Prod.fst).Nodup

/-- The number of valid steps of the line walk from a given start. -/
def lineLen (size : Nat) (d : Direction) (start : Point) : Nat :=
  match d with
  | .horizontal => size - start.x
  | .vertical => size - start.y
  | .diagonal true => min (size - start.x) (start.y + 1)
  | .diagonal false => size - max start.x start.y

/-- The facts a classified line entry carries about the board: a `same` cell
holds the queried stone (which is not empty), an `emptyCell` cell is empty. -/
def entryOK (b : BoardArr) (stone : Stone) (e : S × Point) : Prop :=
  (e.1 = S.same → b.getStone e.2 = stone ∧ stone ≠ .empty)
  ∧ (e.1 = S.emptyCell → b.getStone e.2 = .empty)

/-- Invariant carried by the five scan: every recorded five is a five shape
whose placement is recorded in the five-placement set, lies among its stones,
is empty on the board, and whose other stones hold the queried color. -/
def FivesInv (b : BoardArr) (stone : Stone)
    (acc : List RenjuCondition × List Point) : Prop :=
  ∀ c ∈ acc.1,
    c.isFive = true ∧ c.place ∈ acc.2
    ∧ c.place ∈ c.stones ∧ b.getStone c.place = .empty
    ∧ ∀ p ∈ c.stones, p = c.place ∨ (b.getStone p = stone ∧ stone ≠ .empty)

/-- The C3 scenario board: Black at H8, G8, G9, H10 of a 15×15 board, in the
repository's coordinates (x = 0-based column letter, y = 15 − row). -/
def boardC3 : BoardArr :=
  ⟨15, [(Point.new 7 7, .black), (Point.new 6 7, .black),
        (Point.new 6 6, .black), (Point.new 7 5, .black)]⟩

/-- A Black double-four board: a horizontal group (2,7),(3,7),(4,7) and a
vertical group (6,4),(6,5),(6,6) both give a four when Black plays (6,7). -/
def boardDoubleFour : BoardArr :=
  ⟨15, [(Point.new 2 7, .black), (Point.new 3 7, .black), (Point.new 4 7, .black),
        (Point.new 6 4, .black), (Point.new 6 5, .black), (Point.new 6 6, .black)]⟩

/-- The straight four on the vertical line that a restricted evaluation of
`boardDoubleFour` reports at the double-four point (6,7). -/
def sfAtDoubleFour : RenjuCondition :=
  .straightFour .vertical
    [Point.new 6 4, Point.new 6 5, Point.new 6 6, Point.new 6 7] (Point.new 6 7)

/-- A White board carrying a five and a straight four that share the
placement point (5,5). -/
def boardFiveFour : BoardArr :=
  ⟨15, [(Point.new 1 5, .white), (Point.new 2 5, .white), (Point.new 3 5, .white),
        (Point.new 4 5, .white), (Point.new 5 6, .white), (Point.new 5 7, .white),
        (Point.new 5 8, .white)]⟩

/-- The five of `boardFiveFour` completed at (5,5). -/
def fiveShared : RenjuCondition :=
  .five .horizontal
    [Point.new 1 5, Point.new 2 5, Point.new 3 5, Point.new 4 5, Point.new 5 5]
    (Point.new 5 5)

/-- The straight four of `boardFiveFour` placed at (5,5). -/
def fourShared : RenjuCondition :=
  .straightFour .vertical
    [Point.new 5 5, Point.new 5 6, Point.new 5 7, Point.new 5 8] (Point.new 5 5)

/-- A White board with a five threat and an unrelated three threat, for
exercising the five/three separation. -/
def boardFiveThree : BoardArr :=
  ⟨15, [(Point.new 1 1, .white), (Point.new 2 1, .white), (Point.new 3 1, .white),
        (Point.new 4 1, .white), (Point.new 8 8, .white), (Point.new 9 8, .white)]⟩

/-- A White board whose five at (0,5) shares the stone (2,5) with a
vertical unbroken three, for refuting the stones version of the five/three
separation. -/
def boardFiveThreeShare : BoardArr :=
  ⟨15, [(Point.new 1 5, .white), (Point.new 2 5, .white), (Point.new 3 5, .white),
        (Point.new 4 5, .white), (Point.new 2 6, .white)]⟩

/-- A Black board where playing (3,0) would make six in a row. -/
def boardOverline : BoardArr :=
  ⟨15, [(Point.new 0 0, .black), (Point.new 1 0, .black), (Point.new 2 0, .black),
        (Point.new 4 0, .black), (Point.new 5 0, .black)]⟩

/-- A small legacy board: three Black stones on row 3 around the marker
(3,3). -/
def legacyBoard : Legacy.Board :=
  ⟨15, [(Point.new 2 3, .black), (Point.new 3 3, .black), (Point.new 4 3, .black)]⟩

def legacyMarker : Legacy.BoardMarker := ⟨Point.new 3 3, .black⟩

end Renju

namespace Renju

/-! Generic lemmas about the ordered-set and map encodings. -/

theorem mem_insertOnce {α : Type} [DecidableEq α] {a c : α} {l : List α} :
    a ∈ insertOnce c l ↔ a = c ∨ a ∈ l := by
  unfold insertOnce
  split
  · rename_i hc
    constructor
    · exact fun h => Or.inr h
    · rintro (rfl | h) <;> assumption
  · simp [or_comm]

theorem mem_insertOnce_of_mem {α : Type} [DecidableEq α] {a : α} (c : α) {l : List α}
    (h : a ∈ l) : a ∈ insertOnce c l :=
  mem_insertOnce.mpr (Or.inr h)

theorem self_mem_insertOnce {α : Type} [DecidableEq α] (c : α) (l : List α) :
    c ∈ insertOnce c l :=
  mem_insertOnce.mpr (Or.inl rfl)

theorem mem_foldl_insertOnce {α : Type} [DecidableEq α] {a : α} :
    ∀ {l init : List α}, a ∈ List.foldl (fun acc c => insertOnce c acc) init l ↔
      a ∈ init ∨ a ∈ l := by
  intro l
  induction l with
  | nil => simp
  | cons c rest ih =>
    intro init
    rw [List.foldl_cons, ih]
    rw [mem_insertOnce]
    constructor
    · rintro ((rfl | h) | h) <;> simp_all
    · rintro (h | h)
      · exact Or.inl (Or.inr h)
      · rcases List.mem_cons.mp h with rfl | h
        · exact Or.inl (Or.inl rfl)
        · exact Or.inr h

theorem foldl_preserve {α β : Type} {P : α → Prop} {f : α → β → α}
    (hf : ∀ a x, P a → P (f a x)) :
    ∀ (l : List β) (a : α), P a → P (List.foldl f a l) := by
  intro l
  induction l with
  | nil => exact fun a h => h
  | cons x rest ih => exact fun a h => ih (f a x) (hf a x h)

theorem foldl_establish {α β : Type} {P : α → Prop} {f : α → β → α}
    (hpres : ∀ a x, P a → P (f a x)) :
    ∀ (l : List β) (x : β), x ∈ l → (∀ a, P (f a x)) →
      ∀ a : α, P (List.foldl f a l) := by
  intro l
  induction l with
  | nil => intro x hx; exact absurd hx (List.not_mem_nil x)
  | cons y rest ih =>
    intro x hx hest a
    rcases List.mem_cons.mp hx with rfl | hx
    · exact foldl_preserve hpres rest (f a x) (hest a)
    · exact ih x hx hest (f a y)

theorem foldl_preserve_mem {α β : Type} {P : α → Prop} {f : α → β → α} :
    ∀ {l : List β}, (∀ a, ∀ x ∈ l, P a → P (f a x)) →
      ∀ a, P a → P (List.foldl f a l) := by
  intro l
  induction l with
  | nil => exact fun _ a h => h
  | cons x rest ih =>
    intro hf a h
    exact ih (fun a2 y hy => hf a2 y (List.mem_cons_of_mem x hy)) (f a x)
      (hf a x (List.mem_cons_self x rest) h)

theorem mem_foldl_insertOnce_fst {α β : Type} [DecidableEq α] {c : α} :
    ∀ {l : List (α × β)} {init : List α},
      c ∈ List.foldl (fun cs cf => insertOnce cf.1 cs) init l ↔
        c ∈ init ∨ ∃ p, (c, p) ∈ l := by
  intro l
  induction l with
  | nil => simp
  | cons e rest ih =>
    intro init
    rw [List.foldl_cons, ih, mem_insertOnce]
    constructor
    · rintro ((rfl | h) | ⟨p, hp⟩)
      · exact Or.inr ⟨e.2, by simp⟩
      · exact Or.inl h
      · exact Or.inr ⟨p, List.mem_cons_of_mem _ hp⟩
    · rintro (h | ⟨p, hp⟩)
      · exact Or.inl (Or.inr h)
      · rcases List.mem_cons.mp hp with he | hp2
        · exact Or.inl (Or.inl (by rw [← he]))
        · exact Or.inr ⟨p, hp2⟩

/-! Lemmas about the accumulator maps. -/

theorem mapInsert_pres {α : Type} [DecidableEq α] {P : Point → α → Prop}
    {k : Point} {v : α} (hv : P k v) :
    ∀ {m : List (Point × List α)},
      (∀ kv ∈ m, ∀ x ∈ kv.2, P kv.1 x) →
      ∀ kv ∈ mapInsert k v m, ∀ x ∈ kv.2, P kv.1 x := by
  intro m
  induction m with
  | nil =>
    intro _ kv hkv x hx
    simp only [mapInsert, List.mem_singleton] at hkv
    subst hkv
    simp only [List.mem_singleton] at hx
    subst hx
    exact hv
  | cons e rest ih =>
    intro hm kv hkv x hx
    unfold mapInsert at hkv
    split at hkv
    · rename_i hek
      rcases List.mem_cons.mp hkv with rfl | h
      · rcases mem_insertOnce.mp hx with rfl | hxe
        · show P e.1 x; rw [hek]; exact hv
        · exact hm e (List.mem_cons_self e rest) x hxe
      · exact hm kv (List.mem_cons_of_mem e h) x hx
    · rcases List.mem_cons.mp hkv with rfl | h
      · exact hm kv (List.mem_cons_self kv rest) x hx
      · exact ih (fun kv2 h2 => hm kv2 (List.mem_cons_of_mem e h2)) kv h x hx

theorem mapInsert_keys {α : Type} [DecidableEq α] (k : Point) (v : α) :
    ∀ m : List (Point × List α),
      (mapInsert k v m).map Prod.fst
        = if k ∈ m.map Prod.fst then m.map Prod.fst else m.map Prod.fst ++ [k] := by
  intro m
  induction m with
  | nil => simp [mapInsert]
  | cons e rest ih =>
    unfold mapInsert
    split
    · rename_i hek
      simp [← hek]
    · rename_i hek
      have hke : ¬ k = e.1 := fun h => hek h.symm
      simp only [List.map_cons, List.mem_cons]
      rw [ih]
      by_cases hk : k ∈ rest.map Prod.fst
      · simp [hk, hke]
      · simp [hk, hke]

theorem mapInsert_keys_nodup {α : Type} [DecidableEq α] (k : Point) (v : α)
    {m : List (Point × List α)} (h : (m.map Prod.fst).Nodup) :
    ((mapInsert k v m).map Prod.fst).Nodup := by
  rw [mapInsert_keys]
  split
  · exact h
  · rename_i hk
    refine List.Nodup.append h (List.nodup_singleton k) ?_
    intro a ha hb
    simp only [List.mem_singleton] at hb
    subst hb
    exact hk ha

theorem MapInv_mapInsert {α : Type} [DecidableEq α] {P : Point → α → Prop}
    {k : Point} {v : α} {m : List (Point × List α)}
    (hm : MapInv P m) (hv : P k v) : MapInv P (mapInsert k v m) :=
  ⟨mapInsert_pres hv hm.1, mapInsert_keys_nodup k v hm.2⟩

theorem group_unique {α : Type} {k : Point} {v w : List α} :
    ∀ {m : List (Point × List α)}, (m.map Prod.fst).Nodup →
      (k, v) ∈ m → (k, w) ∈ m → v = w := by
  intro m
  induction m with
  | nil => intro _ hv; simp at hv
  | cons e rest ih =>
    intro hnd hv hw
    simp only [List.map_cons, List.nodup_cons] at hnd
    rcases List.mem_cons.mp hv with rfl | hv2
    · rcases List.mem_cons.mp hw with h | hw2
      · exact (congrArg Prod.snd h).symm
      · exact absurd (List.mem_map.mpr ⟨(k, w), hw2, rfl⟩) hnd.1
    · rcases List.mem_cons.mp hw with rfl | hw2
      · exact absurd (List.mem_map.mpr ⟨(k, v), hv2, rfl⟩) hnd.1
      · exact ih hnd.2 hv2 hw2

theorem mapGroup_mem {α : Type} {k : Point} {m : List (Point × List α)} {v : List α}
    (h : mapGroup k m = some v) : (k, v) ∈ m := by
  unfold mapGroup at h
  cases hf : m.find? (fun kv => kv.1 = k) with
  | none => rw [hf] at h; exact Option.noConfusion h
  | some kv =>
    rw [hf] at h
    have h1 : kv.1 = k := by simpa using List.find?_some hf
    have h2 := List.mem_of_find?_eq_some hf
    have h3 : kv.2 = v := Option.some.inj h
    rw [← h1, ← h3]
    exact h2

/-! Structural invariants of the detection phases. -/

theorem mem_of_mem_windows {α : Type} {k : Nat} {l w : List α}
    (hw : w ∈ windows k l) {e : α} (he : e ∈ w) : e ∈ l := by
  unfold windows at hw
  rcases List.mem_map.mp hw with ⟨i, _, rfl⟩
  exact List.drop_subset i l (List.take_subset k _ he)

theorem stone_ne_empty_of_not_is_empty {s : Stone} (h : s.is_empty = false) :
    s ≠ .empty := by
  cases s <;> simp_all [Stone.is_empty]

theorem classifiedLines_entryOK (b : BoardArr) (stone : Stone) :
    ∀ dl ∈ classifiedLines b stone, ∀ e ∈ dl.2, entryOK b stone e := by
  intro dl hdl e he
  unfold classifiedLines at hdl
  rcases List.mem_map.mp hdl with ⟨dl0, _, rfl⟩
  dsimp only at he
  rcases List.mem_append.mp he with h1 | h2
  · rcases List.mem_append.mp h1 with hb | hmid
    · have : e = (S.border, nullPoint) := by
        rcases List.mem_cons.mp hb with h | h
        · exact h
        · simpa using h
      subst this
      exact ⟨fun h => by simp at h, fun h => by simp at h⟩
    · rcases List.mem_map.mp hmid with ⟨p, _, rfl⟩
      constructor
      · intro hs
        dsimp only at hs
        unfold classifyCell at hs
        split at hs
        · simp at hs
        · split at hs
          · rename_i hne heq
            exact ⟨heq, heq ▸ stone_ne_empty_of_not_is_empty (by simpa using hne)⟩
          · simp at hs
      · intro hs
        dsimp only at hs
        unfold classifyCell at hs
        split at hs
        · rename_i hemp
          have : b.getStone p = .empty := by
            revert hemp
            cases b.getStone p <;> simp [Stone.is_empty]
          exact this
        · split at hs <;> simp at hs
  · have : e = (S.border, nullPoint) := by
      rcases List.mem_cons.mp h2 with h | h
      · exact h
      · simpa using h
    subst this
    exact ⟨fun h => by simp at h, fun h => by simp at h⟩

theorem foursScan_inv (stone : Stone) (only : Option (List Point)) (forb : List Point)
    (lines : List (Direction × List (S × Point))) :
    MapInv (fun k c => c.place = k ∧ c.isFourShape = true ∧ k ∉ forb)
      (foursScan stone only forb lines) := by
  unfold foursScan
  refine foldl_preserve_mem (fun m dl _ hm => ?_) [] ⟨by simp, by simp⟩
  refine foldl_preserve_mem (fun m2 w _ hm2 => ?_) m hm
  unfold foursStep
  split
  · split
    · split
      · dsimp only
        split
        · rename_i hg2
          split
          · rename_i hg1
            exact MapInv_mapInsert
              (MapInv_mapInsert hm2 ⟨by split <;> rfl, by split <;> rfl, hg1⟩)
              ⟨rfl, rfl, hg2.1⟩
          · exact MapInv_mapInsert hm2 ⟨rfl, rfl, hg2.1⟩
        · split
          · rename_i hg1
            exact MapInv_mapInsert hm2 ⟨by split <;> rfl, by split <;> rfl, hg1⟩
          · exact hm2
      · exact hm2
    · split
      · dsimp only
        split
        · rename_i hg2
          split
          · rename_i hg1
            exact MapInv_mapInsert
              (MapInv_mapInsert hm2 ⟨by split <;> rfl, by split <;> rfl, hg1⟩)
              ⟨rfl, rfl, hg2.1⟩
          · exact MapInv_mapInsert hm2 ⟨rfl, rfl, hg2.1⟩
        · split
          · rename_i hg1
            exact MapInv_mapInsert hm2 ⟨by split <;> rfl, by split <;> rfl, hg1⟩
          · exact hm2
      · exact hm2
    · split
      · dsimp only
        split
        · rename_i hg2
          split
          · rename_i hg1
            exact MapInv_mapInsert
              (MapInv_mapInsert hm2 ⟨by split <;> rfl, by split <;> rfl, hg1⟩)
              ⟨rfl, rfl, hg2.1⟩
          · exact MapInv_mapInsert hm2 ⟨rfl, rfl, hg2.1⟩
        · split
          · rename_i hg1
            exact MapInv_mapInsert hm2 ⟨by split <;> rfl, by split <;> rfl, hg1⟩
          · exact hm2
      · exact hm2
    · split
      · dsimp only
        split
        · rename_i hg2
          split
          · rename_i hg1
            exact MapInv_mapInsert
              (MapInv_mapInsert hm2 ⟨by split <;> rfl, by split <;> rfl, hg1⟩)
              ⟨rfl, rfl, hg2.1⟩
          · exact MapInv_mapInsert hm2 ⟨rfl, rfl, hg2.1⟩
        · split
          · rename_i hg1
            exact MapInv_mapInsert hm2 ⟨by split <;> rfl, by split <;> rfl, hg1⟩
          · exact hm2
      · exact hm2
    · exact hm2
  · exact hm2

theorem fivesScan_inv (b : BoardArr) (stone : Stone)
    {lines : List (Direction × List (S × Point))}
    (hl : ∀ dl ∈ lines, ∀ e ∈ dl.2, entryOK b stone e) :
    FivesInv b stone (fivesScan stone lines) := by
  unfold fivesScan
  refine foldl_preserve_mem ?step ([], []) ?base
  case base => exact fun c hc => absurd hc (List.not_mem_nil c)
  intro acc dl hdl hacc
  refine foldl_preserve_mem (fun acc2 w hw hacc2 => ?_) acc hacc
  have hwe : ∀ e ∈ w, entryOK b stone e := fun e he => hl dl hdl e (mem_of_mem_windows hw he)
  unfold fivesStep
  split
  · split
    · exact hacc2
    · intro c hc
      rcases mem_insertOnce.mp hc with rfl | hold
      · refine ⟨rfl, self_mem_insertOnce _ _,
          by simp [RenjuCondition.stones, RenjuCondition.place], ?_, ?_⟩
        · exact (hwe (S.emptyCell, _) (by simp)).2 rfl
        · intro p hp
          simp only [RenjuCondition.stones, RenjuCondition.place, List.mem_cons,
            List.not_mem_nil, or_false] at hp ⊢
          rcases hp with rfl | rfl | rfl | rfl | rfl
          · exact Or.inr ((hwe (S.same, p) (by simp)).1 rfl)
          · exact Or.inr ((hwe (S.same, p) (by simp)).1 rfl)
          · exact Or.inr ((hwe (S.same, p) (by simp)).1 rfl)
          · exact Or.inr ((hwe (S.same, p) (by simp)).1 rfl)
          · exact Or.inl rfl
      · have h4 := hacc2 c hold
        exact ⟨h4.1, mem_insertOnce_of_mem _ h4.2.1, h4.2.2.1, h4.2.2.2.1, h4.2.2.2.2⟩
  · split
    · exact hacc2
    · intro c hc
      rcases mem_insertOnce.mp hc with rfl | hold
      · refine ⟨rfl, self_mem_insertOnce _ _,
          by simp [RenjuCondition.stones, RenjuCondition.place], ?_, ?_⟩
        · exact (hwe (S.emptyCell, _) (by simp)).2 rfl
        · intro p hp
          simp only [RenjuCondition.stones, RenjuCondition.place, List.mem_cons,
            List.not_mem_nil, or_false] at hp ⊢
          rcases hp with rfl | rfl | rfl | rfl | rfl
          · exact Or.inl rfl
          · exact Or.inr ((hwe (S.same, p) (by simp)).1 rfl)
          · exact Or.inr ((hwe (S.same, p) (by simp)).1 rfl)
          · exact Or.inr ((hwe (S.same, p) (by simp)).1 rfl)
          · exact Or.inr ((hwe (S.same, p) (by simp)).1 rfl)
      · have h4 := hacc2 c hold
        exact ⟨h4.1, mem_insertOnce_of_mem _ h4.2.1, h4.2.2.1, h4.2.2.2.1, h4.2.2.2.2⟩
  · exact hacc2

theorem threesScan_inv (b : BoardArr) (stone : Stone) (only : Option (List Point))
    (forb : List Point) (fives : List Point)
    {lines : List (Direction × List (S × Point))}
    (hl : ∀ dl ∈ lines, ∀ e ∈ dl.2, entryOK b stone e) :
    MapInv (fun k cp => cp.1.place = k ∧ cp.1.isThreeShape = true ∧ cp.1.place ∉ fives
        ∧ b.getStone cp.1.place = .empty ∧ k ∉ forb)
      (threesScan stone only forb fives lines) := by
  unfold threesScan
  refine foldl_preserve_mem (fun m dl hdl hm => ?_) [] ⟨by simp, by simp⟩
  refine foldl_preserve_mem (fun m2 w hw hm2 => ?_) m hm
  have hwe : ∀ e ∈ w, entryOK b stone e := fun e he => hl dl hdl e (mem_of_mem_windows hw he)
  unfold threesStep
  split
  · split
    · dsimp only
      split
      · exact hm2
      · split
        · split
          · exact hm2
          · split
            · rename_i hg
              refine MapInv_mapInsert hm2 ⟨rfl, rfl, hg.2.1, ?_, hg.1⟩
              exact (hwe (S.emptyCell, _) (by simp)).2 rfl
            · exact hm2
        · split
          · rename_i hgU
            split
            · rename_i hgB
              refine MapInv_mapInsert
                (MapInv_mapInsert hm2 ⟨rfl, rfl, hgB.2.1, ?_, hgB.1⟩)
                ⟨rfl, rfl, hgU.2.1, ?_, hgU.1⟩
              all_goals exact (hwe (S.emptyCell, _) (by simp)).2 rfl
            · refine MapInv_mapInsert hm2 ⟨rfl, rfl, hgU.2.1, ?_, hgU.1⟩
              exact (hwe (S.emptyCell, _) (by simp)).2 rfl
          · split
            · rename_i hgB
              refine MapInv_mapInsert hm2 ⟨rfl, rfl, hgB.2.1, ?_, hgB.1⟩
              exact (hwe (S.emptyCell, _) (by simp)).2 rfl
            · exact hm2
    · dsimp only
      split
      · exact hm2
      · split
        · split
          · exact hm2
          · split
            · rename_i hg
              refine MapInv_mapInsert hm2 ⟨rfl, rfl, hg.2.1, ?_, hg.1⟩
              exact (hwe (S.emptyCell, _) (by simp)).2 rfl
            · exact hm2
        · split
          · rename_i hgU
            split
            · rename_i hgB
              refine MapInv_mapInsert
                (MapInv_mapInsert hm2 ⟨rfl, rfl, hgB.2.1, ?_, hgB.1⟩)
                ⟨rfl, rfl, hgU.2.1, ?_, hgU.1⟩
              all_goals exact (hwe (S.emptyCell, _) (by simp)).2 rfl
            · refine MapInv_mapInsert hm2 ⟨rfl, rfl, hgU.2.1, ?_, hgU.1⟩
              exact (hwe (S.emptyCell, _) (by simp)).2 rfl
          · split
            · rename_i hgB
              refine MapInv_mapInsert hm2 ⟨rfl, rfl, hgB.2.1, ?_, hgB.1⟩
              exact (hwe (S.emptyCell, _) (by simp)).2 rfl
            · exact hm2
    · dsimp only
      split
      · exact hm2
      · split
        · split
          · rename_i hg
            refine MapInv_mapInsert hm2 ⟨rfl, rfl, hg.2.1, ?_, hg.1⟩
            exact (hwe (S.emptyCell, _) (by simp)).2 rfl
          · exact hm2
        · split
          · rename_i hgU
            split
            · rename_i hgB
              refine MapInv_mapInsert
                (MapInv_mapInsert hm2 ⟨rfl, rfl, hgB.2.1, ?_, hgB.1⟩)
                ⟨rfl, rfl, hgU.2.1, ?_, hgU.1⟩
              all_goals exact (hwe (S.emptyCell, _) (by simp)).2 rfl
            · refine MapInv_mapInsert hm2 ⟨rfl, rfl, hgU.2.1, ?_, hgU.1⟩
              exact (hwe (S.emptyCell, _) (by simp)).2 rfl
          · split
            · rename_i hgB
              refine MapInv_mapInsert hm2 ⟨rfl, rfl, hgB.2.1, ?_, hgB.1⟩
              exact (hwe (S.emptyCell, _) (by simp)).2 rfl
            · exact hm2
    · dsimp only
      split
      · exact hm2
      · split
        · split
          · rename_i hg
            refine MapInv_mapInsert hm2 ⟨rfl, rfl, hg.2.1, ?_, hg.1⟩
            exact (hwe (S.emptyCell, _) (by simp)).2 rfl
          · exact hm2
        · split
          · rename_i hgU
            split
            · rename_i hgB
              refine MapInv_mapInsert
                (MapInv_mapInsert hm2 ⟨rfl, rfl, hgB.2.1, ?_, hgB.1⟩)
                ⟨rfl, rfl, hgU.2.1, ?_, hgU.1⟩
              all_goals exact (hwe (S.emptyCell, _) (by simp)).2 rfl
            · refine MapInv_mapInsert hm2 ⟨rfl, rfl, hgU.2.1, ?_, hgU.1⟩
              exact (hwe (S.emptyCell, _) (by simp)).2 rfl
          · split
            · rename_i hgB
              refine MapInv_mapInsert hm2 ⟨rfl, rfl, hgB.2.1, ?_, hgB.1⟩
              exact (hwe (S.emptyCell, _) (by simp)).2 rfl
            · exact hm2
    · split
      · dsimp only
        split
        · rename_i hgU
          split
          · rename_i hgB
            refine MapInv_mapInsert
              (MapInv_mapInsert hm2 ⟨rfl, rfl, hgB.2.1, ?_, hgB.1⟩)
              ⟨rfl, rfl, hgU.2.1, ?_, hgU.1⟩
            all_goals exact (hwe (S.emptyCell, _) (by simp)).2 rfl
          · refine MapInv_mapInsert hm2 ⟨rfl, rfl, hgU.2.1, ?_, hgU.1⟩
            exact (hwe (S.emptyCell, _) (by simp)).2 rfl
        · split
          · rename_i hgB
            refine MapInv_mapInsert hm2 ⟨rfl, rfl, hgB.2.1, ?_, hgB.1⟩
            exact (hwe (S.emptyCell, _) (by simp)).2 rfl
          · exact hm2
      · exact hm2
    · exact hm2
  · exact hm2

/-! Provenance of the reported conditions. -/

theorem resolveEntry_conditions
    (recur : BoardArr → Stone → Option (List Point) → RenjuConditions)
    (b : BoardArr) (stone : Stone) (forb : List Point)
    (acc : List RenjuCondition × List Point)
    (kv : Point × List (RenjuCondition × Point)) {c : RenjuCondition}
    (hc : c ∈ (resolveEntry recur b stone forb acc kv).1) :
    c ∈ acc.1 ∨ ∃ p, (c, p) ∈ kv.2 := by
  unfold resolveEntry at hc
  dsimp only at hc
  split at hc
  · split at hc
    · split at hc
      · exact Or.inl hc
      · exact Or.inl hc
    · exact Or.inl hc
  · rcases mem_foldl_insertOnce_fst.mp hc with h | ⟨p, hp⟩
    · exact Or.inl h
    · exact Or.inr ⟨p, hp⟩

theorem resolveFold_conditions
    (recur : BoardArr → Stone → Option (List Point) → RenjuConditions)
    (b : BoardArr) (stone : Stone) (forb : List Point) :
    ∀ (tm : List (Point × List (RenjuCondition × Point)))
      (acc : List RenjuCondition × List Point) {c : RenjuCondition},
      c ∈ (List.foldl (resolveEntry recur b stone forb) acc tm).1 →
      c ∈ acc.1 ∨ ∃ kv, kv ∈ tm ∧ ∃ p, (c, p) ∈ kv.2 := by
  intro tm
  induction tm with
  | nil => intro acc c hc; exact Or.inl hc
  | cons kv rest ih =>
    intro acc c hc
    rw [List.foldl_cons] at hc
    rcases ih _ hc with h | ⟨kv2, h2, hp⟩
    · rcases resolveEntry_conditions recur b stone forb acc kv h with h3 | ⟨p, hp⟩
      · exact Or.inl h3
      · exact Or.inr ⟨kv, List.mem_cons_self kv rest, p, hp⟩
    · exact Or.inr ⟨kv2, List.mem_cons_of_mem _ h2, hp⟩

theorem applyFours_conditions (stone : Stone) :
    ∀ (m : List (Point × List RenjuCondition)) (forb : List Point)
      (conds : List RenjuCondition) {c : RenjuCondition},
      c ∈ (applyFours stone m forb conds).2 →
      c ∈ conds ∨ ∃ kv, kv ∈ m ∧ c ∈ kv.2 ∧ ¬(stone.is_black ∧ kv.2.length > 1) := by
  intro m
  induction m with
  | nil => intro forb conds c hc; exact Or.inl hc
  | cons kv rest ih =>
    intro forb conds c hc
    unfold applyFours at hc
    rw [List.foldl_cons] at hc
    dsimp only at hc
    split at hc
    · rcases ih _ _ hc with h | ⟨kv2, h2, hc2, hn⟩
      · exact Or.inl h
      · exact Or.inr ⟨kv2, List.mem_cons_of_mem _ h2, hc2, hn⟩
    · rename_i hneg
      rcases ih _ _ hc with h | ⟨kv2, h2, hc2, hn⟩
      · rcases mem_foldl_insertOnce.mp h with h3 | h3
        · exact Or.inl h3
        · exact Or.inr ⟨kv, List.mem_cons_self kv rest, h3, hneg⟩
      · exact Or.inr ⟨kv2, List.mem_cons_of_mem _ h2, hc2, hn⟩

theorem applyFours_fst_mem (stone : Stone) :
    ∀ (m : List (Point × List RenjuCondition)) (forb : List Point)
      (conds : List RenjuCondition) {a : Point},
      a ∈ forb → a ∈ (applyFours stone m forb conds).1 := by
  intro m forb conds a ha
  unfold applyFours
  refine @foldl_preserve _ _ (fun acc : List Point × List RenjuCondition => a ∈ acc.1) _ (fun acc kv hacc => ?_) m (forb, conds) ha
  dsimp only
  split
  · exact mem_insertOnce_of_mem _ hacc
  · exact hacc

theorem applyFours_fst_insert
    (m : List (Point × List RenjuCondition)) (forb : List Point)
    (conds : List RenjuCondition) {k : Point} {v : List RenjuCondition}
    (hmem : (k, v) ∈ m) (h2 : 1 < v.length) :
    k ∈ (applyFours .black m forb conds).1 := by
  unfold applyFours
  refine @foldl_establish _ _ (fun acc : List Point × List RenjuCondition => k ∈ acc.1) _
    (fun acc kv hacc => ?_) m (k, v) hmem (fun acc => ?_) _
  · dsimp only
    split
    · exact mem_insertOnce_of_mem _ hacc
    · exact hacc
  · dsimp only
    rw [if_pos ⟨rfl, h2⟩]
    exact self_mem_insertOnce _ _

/-! Shape-kind exclusivity. -/

theorem fourShape_not_threeShape {c : RenjuCondition} (h : c.isFourShape = true) :
    c.isThreeShape = false := by
  cases c <;> simp_all [RenjuCondition.isFourShape, RenjuCondition.isThreeShape]

theorem fourShape_not_five {c : RenjuCondition} (h : c.isFourShape = true) :
    c.isFive = false := by
  cases c <;> simp_all [RenjuCondition.isFourShape, RenjuCondition.isFive]

theorem five_not_threeShape {c : RenjuCondition} (h : c.isFive = true) :
    c.isThreeShape = false := by
  cases c <;> simp_all [RenjuCondition.isFive, RenjuCondition.isThreeShape]

theorem threeShape_not_fourShape {c : RenjuCondition} (h : c.isThreeShape = true) :
    c.isFourShape = false := by
  cases c <;> simp_all [RenjuCondition.isFourShape, RenjuCondition.isThreeShape]

/-! Claim C1: White never has forbidden points. -/

theorem overlineScan_white (lines : List (Direction × List (S × Point))) :
    overlineScan .white lines = [] := rfl

theorem applyFours_fst_white :
    ∀ (m : List (Point × List RenjuCondition)) (forb : List Point)
      (conds : List RenjuCondition), (applyFours .white m forb conds).1 = forb := by
  intro m
  induction m with
  | nil => intro forb conds; rfl
  | cons kv rest ih =>
    intro forb conds
    unfold applyFours
    rw [List.foldl_cons]
    dsimp only
    rw [if_neg (by simp [Stone.is_black])]
    exact ih forb _

theorem resolveFold_snd_white (recur : BoardArr → Stone → Option (List Point) → RenjuConditions)
    (b : BoardArr) (forb : List Point) :
    ∀ (tm : List (Point × List (RenjuCondition × Point)))
      (acc : List RenjuCondition × List Point),
      (List.foldl (resolveEntry recur b .white forb) acc tm).2 = acc.2 := by
  intro tm
  induction tm with
  | nil => intro acc; rfl
  | cons kv rest ih =>
    intro acc
    rw [List.foldl_cons]
    rw [ih]
    show (resolveEntry recur b .white forb acc kv).2 = acc.2
    unfold resolveEntry
    simp [Stone.is_black]

/-- C1: for every board, every restriction argument and any fuel, the result
of `renju_conditions` queried for White has an empty forbidden set — White
has no placement restrictions, so the source's `assert!(forbidden.is_empty())`
for White never fires. -/
theorem white_forbidden_empty (b : BoardArr) (only : Option (List Point)) (fuel : Nat) :
    (renjuConditionsF fuel b .white only).forbidden = []
    ∧ (b.renju_conditions .white only).forbidden = [] := by
  have key : ∀ recur, (renjuBody recur b .white only).forbidden = [] := by
    intro recur
    unfold renjuBody
    dsimp only
    rw [resolveFold_snd_white]
    rw [applyFours_fst_white]
    rfl
  refine ⟨?_, ?_⟩
  · cases fuel <;> exact key _
  · show (renjuConditionsF (b.size * b.size + 1) b .white only).forbidden = []
    exact key _

/-! Claim C4: the double-four ban. -/

/-- C4: for every board evaluated for Black (any restriction, any fuel), if
a candidate placement point accumulates two or more distinct non-forbidden
four shapes in the `fours` map, then that point is in the forbidden set and
none of those four shapes appear in the reported conditions. -/
theorem double_four_ban (fuel : Nat) (b : BoardArr) (only : Option (List Point))
    (k : Point) (v : List RenjuCondition)
    (hv : mapGroup k (fourAccumulator b only) = some v) (h2 : 2 ≤ v.length) :
    k ∈ (renjuConditionsF fuel b .black only).forbidden
    ∧ ∀ c ∈ v, c ∉ (renjuConditionsF fuel b .black only).conditions := by
  have hmem : (k, v) ∈ fourAccumulator b only := mapGroup_mem hv
  unfold fourAccumulator at hmem
  have hinv := foursScan_inv .black only
    (overlineScan .black (classifiedLines b .black)) (classifiedLines b .black)
  have key : ∀ recur, k ∈ (renjuBody recur b .black only).forbidden
      ∧ ∀ c ∈ v, c ∉ (renjuBody recur b .black only).conditions := by
    intro recur
    constructor
    · unfold renjuBody
      dsimp only
      exact mem_foldl_insertOnce.mpr
        (Or.inl (applyFours_fst_insert _ _ _ hmem (by omega)))
    · intro c hcv hcc
      unfold renjuBody at hcc
      dsimp only at hcc
      have hfour := (hinv.1 _ hmem c hcv).2.1
      rcases resolveFold_conditions recur b .black _ _ _ hcc with h | ⟨kv2, hkv2, p, hp⟩
      · rcases applyFours_conditions .black _ _ _ h with h3 | ⟨kv3, hkv3, hc3, hneg⟩
        · have hfive := (fivesScan_inv b .black
            (classifiedLines_entryOK b .black) c h3).1
          rw [fourShape_not_five hfour] at hfive
          exact Bool.noConfusion hfive
        · have h1 := hinv.1 _ hkv3 c hc3
          have h0 := (hinv.1 _ hmem c hcv).1
          have hk : kv3.1 = k := by rw [← h1.1, h0]
          have hkv3m : (k, kv3.2) ∈ foursScan .black only
              (overlineScan .black (classifiedLines b .black))
              (classifiedLines b .black) := by
            rw [← hk]; exact hkv3
          have heqv : kv3.2 = v := group_unique hinv.2 hkv3m hmem
          rw [heqv] at hneg
          exact hneg ⟨rfl, by omega⟩
      · have ht := (threesScan_inv b .black only _ _
          (classifiedLines_entryOK b .black)).1 _ hkv2 (c, p) hp
        have h3 := ht.2.1
        rw [fourShape_not_threeShape hfour] at h3
        exact Bool.noConfusion h3
  cases fuel with
  | zero => exact key _
  | succ n => exact key _

set_option maxRecDepth 1000000 in
theorem double_four_ban_witness :
    mapGroup (Point.new 6 7) (fourAccumulator boardDoubleFour none)
      = some [RenjuCondition.brokenFour .horizontal
            [Point.new 2 7, Point.new 3 7, Point.new 4 7, Point.new 5 7, Point.new 6 7]
            (Point.new 6 7),
          sfAtDoubleFour]
    ∧ 2 ≤ [RenjuCondition.brokenFour .horizontal
            [Point.new 2 7, Point.new 3 7, Point.new 4 7, Point.new 5 7, Point.new 6 7]
            (Point.new 6 7),
          sfAtDoubleFour].length
    ∧ (Point.new 6 7 ∈ (renjuConditionsF 1 boardDoubleFour .black none).forbidden
      ∧ ∀ c ∈ [RenjuCondition.brokenFour .horizontal
            [Point.new 2 7, Point.new 3 7, Point.new 4 7, Point.new 5 7, Point.new 6 7]
            (Point.new 6 7),
          sfAtDoubleFour], c ∉ (renjuConditionsF 1 boardDoubleFour .black none).conditions) := by
  have hv : mapGroup (Point.new 6 7) (fourAccumulator boardDoubleFour none)
      = some [RenjuCondition.brokenFour .horizontal
            [Point.new 2 7, Point.new 3 7, Point.new 4 7, Point.new 5 7, Point.new 6 7]
            (Point.new 6 7),
          sfAtDoubleFour] := by
    decide
  exact ⟨hv, by decide,
    double_four_ban 1 boardDoubleFour none (Point.new 6 7)
      [RenjuCondition.brokenFour .horizontal
          [Point.new 2 7, Point.new 3 7, Point.new 4 7, Point.new 5 7, Point.new 6 7]
          (Point.new 6 7),
        sfAtDoubleFour] hv (by decide)⟩

/-! Claim C6, amended part: a five's points never coincide with a reported
three's placement point. -/

/-- C6 amended: for every board, stone and restriction, no point of a
detected Five condition is the placement point of a reported Three
condition: the three's placement avoids every five placement, and the five's
stones are occupied while a three placement is empty. -/
theorem five_place_not_three_place (fuel : Nat) (b : BoardArr) (stone : Stone)
    (only : Option (List Point)) (c f : RenjuCondition)
    (hc : c ∈ (renjuConditionsF fuel b stone only).conditions)
    (hct : c.isThreeShape = true)
    (hf : f ∈ (renjuConditionsF fuel b stone only).conditions)
    (hff : f.isFive = true) :
    c.place ∉ f.stones := by
  have hOK := classifiedLines_entryOK b stone
  have key : ∀ recur,
      c ∈ (renjuBody recur b stone only).conditions →
      f ∈ (renjuBody recur b stone only).conditions → c.place ∉ f.stones := by
    intro recur hcc hfc
    unfold renjuBody at hcc hfc
    dsimp only at hcc hfc
    have hfive : f ∈ (fivesScan stone (classifiedLines b stone)).1 := by
      rcases resolveFold_conditions recur b stone _ _ _ hfc with h | ⟨kv2, hkv2, p, hp⟩
      · rcases applyFours_conditions stone _ _ _ h with h3 | ⟨kv3, hkv3, hc3, _⟩
        · exact h3
        · have h4 := ((foursScan_inv stone only _ _).1 _ hkv3 f hc3).2.1
          rw [fourShape_not_five h4] at hff
          exact Bool.noConfusion hff
      · have ht := ((threesScan_inv b stone only _ _ hOK).1 _ hkv2 (f, p) hp).2.1
        rw [five_not_threeShape hff] at ht
        exact Bool.noConfusion ht
    have hcthree : ∃ kv p, kv ∈ threesScan stone only
        (applyFours stone
          (foursScan stone only (overlineScan stone (classifiedLines b stone))
            (classifiedLines b stone))
          (overlineScan stone (classifiedLines b stone))
          (fivesScan stone (classifiedLines b stone)).1).1
        (fivesScan stone (classifiedLines b stone)).2 (classifiedLines b stone)
        ∧ (c, p) ∈ kv.2 := by
      rcases resolveFold_conditions recur b stone _ _ _ hcc with h | ⟨kv2, hkv2, p, hp⟩
      · rcases applyFours_conditions stone _ _ _ h with h3 | ⟨kv3, hkv3, hc3, _⟩
        · have h5 := (fivesScan_inv b stone hOK c h3).1
          rw [five_not_threeShape h5] at hct
          exact Bool.noConfusion hct
        · have h4 := ((foursScan_inv stone only _ _).1 _ hkv3 c hc3).2.1
          rw [fourShape_not_threeShape h4] at hct
          exact Bool.noConfusion hct
      · exact ⟨kv2, p, hkv2, hp⟩
    have hfv := fivesScan_inv b stone hOK f hfive
    obtain ⟨kv2, p, hkv2, hp⟩ := hcthree
    have hcv := (threesScan_inv b stone only _ _ hOK).1 _ hkv2 (c, p) hp
    intro hmemf
    rcases hfv.2.2.2.2 _ hmemf with heq | ⟨hstone, hne⟩
    · exact hcv.2.2.1 (heq ▸ hfv.2.1)
    · have : stone = Stone.empty := by rw [← hstone, hcv.2.2.2.1]
      exact hne this
  cases fuel with
  | zero => exact key _ hc hf
  | succ n => exact key _ hc hf

set_option maxRecDepth 1000000 in
theorem five_place_not_three_place_witness :
    (RenjuCondition.unbrokenThree .horizontal
        [Point.new 7 8, Point.new 8 8, Point.new 9 8] (Point.new 7 8))
      ∈ (renjuConditionsF 1 boardFiveThree .white none).conditions
    ∧ (RenjuCondition.five .horizontal
        [Point.new 0 1, Point.new 1 1, Point.new 2 1, Point.new 3 1, Point.new 4 1]
        (Point.new 0 1))
      ∈ (renjuConditionsF 1 boardFiveThree .white none).conditions
    ∧ (RenjuCondition.unbrokenThree .horizontal
        [Point.new 7 8, Point.new 8 8, Point.new 9 8] (Point.new 7 8)).place
      ∉ (RenjuCondition.five .horizontal
        [Point.new 0 1, Point.new 1 1, Point.new 2 1, Point.new 3 1, Point.new 4 1]
        (Point.new 0 1)).stones := by
  have h : (RenjuCondition.unbrokenThree .horizontal
        [Point.new 7 8, Point.new 8 8, Point.new 9 8] (Point.new 7 8))
      ∈ (renjuConditionsF 1 boardFiveThree .white none).conditions
    ∧ (RenjuCondition.five .horizontal
        [Point.new 0 1, Point.new 1 1, Point.new 2 1, Point.new 3 1, Point.new 4 1]
        (Point.new 0 1))
      ∈ (renjuConditionsF 1 boardFiveThree .white none).conditions := by
    decide
  exact ⟨h.1, h.2,
    five_place_not_three_place 1 boardFiveThree .white none
      (RenjuCondition.unbrokenThree .horizontal
        [Point.new 7 8, Point.new 8 8, Point.new 9 8] (Point.new 7 8))
      (RenjuCondition.five .horizontal
        [Point.new 0 1, Point.new 1 1, Point.new 2 1, Point.new 3 1, Point.new 4 1]
        (Point.new 0 1))
      h.1 (by decide) h.2 (by decide)⟩

/-! Line geometry: the closed form of the line walk of `get_line`. -/

theorem lineStep_eq (d : Direction) (start : Point) (count : Nat)
    (h : d = .diagonal true → count ≤ start.y) :
    lineStep d start count = some (stepPt d start count) := by
  cases d with
  | horizontal => rfl
  | vertical => rfl
  | diagonal bottom =>
    cases bottom with
    | false => rfl
    | true => simp [lineStep, stepPt, h rfl]

theorem stepPt_valid_iff (size : Nat) (d : Direction) (start : Point)
    (hnull : start.is_null = false) (hx : start.x < size) (hy : start.y < size)
    (count : Nat) (hd : d = .diagonal true → count ≤ start.y) :
    ((stepPt d start count).isValid size = true ↔ count < lineLen size d start) := by
  cases d with
  | horizontal =>
    simp only [stepPt, Point.isValid, Point.new, lineLen, hnull, Bool.not_false,
      Bool.and_eq_true, decide_eq_true_eq, true_and]
    omega
  | vertical =>
    simp only [stepPt, Point.isValid, Point.new, lineLen, hnull, Bool.not_false,
      Bool.and_eq_true, decide_eq_true_eq, true_and]
    omega
  | diagonal bottom =>
    cases bottom with
    | false =>
      simp only [stepPt, Point.isValid, Point.new, lineLen, hnull, Bool.not_false,
        Bool.and_eq_true, decide_eq_true_eq, true_and]
      omega
    | true =>
      have hcy := hd rfl
      simp only [stepPt, Point.isValid, Point.new, lineLen, hnull, Bool.not_false,
        Bool.and_eq_true, decide_eq_true_eq, true_and]
      omega

theorem genLine_closed (size : Nat) (d : Direction) (start : Point)
    (hnull : start.is_null = false) (hx : start.x < size) (hy : start.y < size) :
    ∀ (fuel count : Nat), lineLen size d start ≤ count + fuel →
      genLine size d start fuel count
        = (List.range (lineLen size d start - count)).map
            (fun i => stepPt d start (count + i)) := by
  intro fuel
  induction fuel with
  | zero =>
    intro count h
    have h0 : lineLen size d start - count = 0 := by omega
    rw [h0]
    rfl
  | succ n ih =>
    intro count h
    by_cases hcount : count < lineLen size d start
    · have hdiag : d = .diagonal true → count ≤ start.y := by
        intro hdt
        subst hdt
        simp only [lineLen] at hcount
        omega
      have hvalid := (stepPt_valid_iff size d start hnull hx hy count hdiag).mpr hcount
      unfold genLine
      rw [lineStep_eq d start count hdiag]
      dsimp only
      rw [if_pos hvalid]
      rw [ih (count + 1) (by omega)]
      have hlen : lineLen size d start - count = (lineLen size d start - (count + 1)) + 1 := by
        omega
      rw [hlen, List.range_succ_eq_map]
      simp only [List.map_cons, List.map_map, Nat.add_zero]
      congr 1
      apply List.map_congr_left
      intro i _
      exact congrArg (stepPt d start) (by omega)
    · have h0 : lineLen size d start - count = 0 := by omega
      rw [h0]
      unfold genLine
      cases hls : lineStep d start count with
      | none => rfl
      | some p =>
        have hdiag : d = .diagonal true → count ≤ start.y := by
          intro hdt
          subst hdt
          by_contra hgt
          rw [show lineStep (Direction.diagonal true) start count = none from by
            simp only [lineStep, if_neg hgt]] at hls
          exact Option.noConfusion hls
        have hp : p = stepPt d start count := by
          rw [lineStep_eq d start count hdiag] at hls
          exact (Option.some.inj hls).symm
        subst hp
        dsimp only
        rw [if_neg (fun hv => hcount
          ((stepPt_valid_iff size d start hnull hx hy count hdiag).mp hv))]
        rfl

theorem lineLen_le (size : Nat) (d : Direction) (start : Point) :
    lineLen size d start ≤ size := by
  cases d with
  | horizontal => simp only [lineLen]; omega
  | vertical => simp only [lineLen]; omega
  | diagonal bottom => cases bottom <;> (simp only [lineLen]; omega)

theorem get_line_closed (b : BoardArr) (d : Direction) (p : Point)
    (hst : (lineStart b.size d p).is_null = false)
    (hx : (lineStart b.size d p).x < b.size)
    (hy : (lineStart b.size d p).y < b.size) :
    (b.get_line d p).2
      = (List.range (lineLen b.size d (lineStart b.size d p))).map
          (fun i => stepPt d (lineStart b.size d p) i) := by
  unfold BoardArr.get_line
  dsimp only
  rw [genLine_closed b.size d _ hst hx hy (b.size + 1) 0
    (by have := lineLen_le b.size d (lineStart b.size d p); omega)]
  simp only [Nat.sub_zero, Nat.zero_add]

theorem lineStart_spec (size : Nat) (d : Direction) {p : Point}
    (hp : p.isValid size = true) :
    (lineStart size d p).is_null = false ∧ (lineStart size d p).x < size
    ∧ (lineStart size d p).y < size
    ∧ stepPt d (lineStart size d p) (lineIdx size d p) = p
    ∧ (d = .diagonal true → lineIdx size d p ≤ (lineStart size d p).y) := by
  obtain ⟨px, py, pn⟩ := p
  simp only [Point.isValid, Bool.and_eq_true, Bool.not_eq_true', decide_eq_true_eq] at hp
  obtain ⟨⟨hn, hx⟩, hy⟩ := hp
  subst hn
  cases d with
  | horizontal =>
    refine ⟨rfl, ?_, ?_, ?_, by simp⟩
    · simp only [lineStart, Point.new]
      omega
    · simp only [lineStart, Point.new]
      omega
    · simp [stepPt, lineStart, lineIdx, Point.new]
  | vertical =>
    refine ⟨rfl, ?_, ?_, ?_, by simp⟩
    · simp only [lineStart, Point.new]
      omega
    · simp only [lineStart, Point.new]
      omega
    · simp [stepPt, lineStart, lineIdx, Point.new]
  | diagonal bottom =>
    cases bottom with
    | false =>
      refine ⟨rfl, ?_, ?_, ?_, by simp⟩
      · simp only [lineStart, lineIdx, Point.new]
        omega
      · simp only [lineStart, lineIdx, Point.new]
        omega
      · simp only [stepPt, lineStart, lineIdx, Point.new, Point.mk.injEq]
        and_intros <;> first | omega | trivial
    | true =>
      refine ⟨rfl, ?_, ?_, ?_, ?_⟩
      · simp only [lineStart, lineIdx, Point.new]
        omega
      · simp only [lineStart, lineIdx, Point.new]
        omega
      · simp only [stepPt, lineStart, lineIdx, Point.new, Point.mk.injEq]
        and_intros <;> first | omega | trivial
      · intro _
        simp only [lineStart, lineIdx, Point.new]
        omega

theorem stepPt_stepPt (d : Direction) (st : Point) (a c : Nat) :
    stepPt d (stepPt d st a) c = stepPt d st (a + c) := by
  cases d with
  | horizontal =>
    simp only [stepPt, Point.new, Point.mk.injEq]
    and_intros <;> first | omega | trivial
  | vertical =>
    simp only [stepPt, Point.new, Point.mk.injEq]
    and_intros <;> first | omega | trivial
  | diagonal bottom =>
    cases bottom <;>
    · simp only [stepPt, Point.new, Point.mk.injEq]
      and_intros <;> first | omega | trivial

theorem get_line_snd_eq_of_start (b : BoardArr) (d : Direction) {p q : Point}
    (h : lineStart b.size d p = lineStart b.size d q) :
    (b.get_line d p).2 = (b.get_line d q).2 := by
  unfold BoardArr.get_line
  dsimp only
  rw [h]

theorem mem_foldr_cons2 {α β : Type} (f g : β → α) (x : α) :
    ∀ (l : List β), (∃ i ∈ l, x = f i ∨ x = g i) →
      x ∈ l.foldr (fun i acc => f i :: g i :: acc) [] := by
  intro l
  induction l with
  | nil => rintro ⟨i, hi, _⟩; exact absurd hi (List.not_mem_nil i)
  | cons j rest ih =>
    rintro ⟨i, hi, hx⟩
    rw [List.foldr_cons]
    rcases List.mem_cons.mp hi with rfl | hi2
    · rcases hx with rfl | rfl
      · exact List.mem_cons_self _ _
      · exact List.mem_cons_of_mem _ (List.mem_cons_self _ _)
    · exact List.mem_cons_of_mem _ (List.mem_cons_of_mem _ (ih ⟨i, hi2, hx⟩))

/-! Claim C7: the `get_line` round trip. -/

theorem lineStart_eq_of_onSameLine (size : Nat) (d : Direction) {p q : Point}
    (hp : p.isValid size = true) (hq : q.isValid size = true)
    (h : onSameLine d p q) :
    lineStart size d p = lineStart size d q := by
  obtain ⟨px, py, pn⟩ := p
  obtain ⟨qx, qy, qn⟩ := q
  simp only [Point.isValid, Bool.and_eq_true, Bool.not_eq_true', decide_eq_true_eq] at hp hq
  obtain ⟨⟨hpn, hpx⟩, hpy⟩ := hp
  obtain ⟨⟨hqn, hqx⟩, hqy⟩ := hq
  cases d with
  | horizontal =>
    simp only [onSameLine] at h
    simp only [lineStart, Point.new, h]
  | vertical =>
    simp only [onSameLine] at h
    simp only [lineStart, Point.new, h]
  | diagonal bottom =>
    cases bottom with
    | true =>
      simp only [onSameLine] at h
      simp only [lineStart, lineIdx, Point.new, Point.mk.injEq]
      and_intros <;> first | omega | trivial
    | false =>
      simp only [onSameLine] at h
      simp only [lineStart, lineIdx, Point.new, Point.mk.injEq]
      and_intros <;> first | omega | trivial

theorem startEdge_of_lineStart (size : Nat) (d : Direction) {p : Point}
    (hp : p.isValid size = true) :
    onStartEdge size d (stepPt d (lineStart size d p) 0) := by
  obtain ⟨px, py, pn⟩ := p
  simp only [Point.isValid, Bool.and_eq_true, Bool.not_eq_true', decide_eq_true_eq] at hp
  obtain ⟨⟨hn, hx⟩, hy⟩ := hp
  cases d with
  | horizontal =>
    simp only [stepPt, lineStart, lineIdx, onStartEdge, Point.new]
  | vertical =>
    simp only [stepPt, lineStart, lineIdx, onStartEdge, Point.new]
  | diagonal bottom =>
    cases bottom <;>
    · simp only [stepPt, lineStart, lineIdx, onStartEdge, Point.new]
      omega

theorem endEdge_of_lineStart (size : Nat) (d : Direction) {p : Point}
    (hp : p.isValid size = true) :
    onEndEdge size d
      (stepPt d (lineStart size d p) (lineLen size d (lineStart size d p) - 1)) := by
  obtain ⟨px, py, pn⟩ := p
  simp only [Point.isValid, Bool.and_eq_true, Bool.not_eq_true', decide_eq_true_eq] at hp
  obtain ⟨⟨hn, hx⟩, hy⟩ := hp
  cases d with
  | horizontal =>
    simp only [stepPt, lineStart, lineIdx, lineLen, onEndEdge, Point.new]
    omega
  | vertical =>
    simp only [stepPt, lineStart, lineIdx, lineLen, onEndEdge, Point.new]
    omega
  | diagonal bottom =>
    cases bottom <;>
    · simp only [stepPt, lineStart, lineIdx, lineLen, onEndEdge, Point.new]
      omega

/-- C7: for every direction and every two valid points on the same line of
the board in that direction, `get_line` yields the same ordered sequence of
points, and that sequence runs from the line's starting board edge to the
opposite edge. -/
theorem get_line_round_trip (b : BoardArr) (d : Direction) {p q : Point}
    (hp : p.isValid b.size = true) (hq : q.isValid b.size = true)
    (hline : onSameLine d p q) :
    (b.get_line d p).2 = (b.get_line d q).2
    ∧ (∃ s, (b.get_line d p).2.head? = some s ∧ onStartEdge b.size d s)
    ∧ (∃ e, (b.get_line d p).2.getLast? = some e ∧ onEndEdge b.size d e) := by
  obtain ⟨hn, hx, hy, hstep, hdg⟩ := lineStart_spec b.size d hp
  have hlt : lineIdx b.size d p < lineLen b.size d (lineStart b.size d p) :=
    (stepPt_valid_iff b.size d _ hn hx hy _ hdg).mp (by rw [hstep]; exact hp)
  refine ⟨get_line_snd_eq_of_start b d (lineStart_eq_of_onSameLine b.size d hp hq hline),
    ?_, ?_⟩
  · refine ⟨stepPt d (lineStart b.size d p) 0, ?_, startEdge_of_lineStart b.size d hp⟩
    rw [get_line_closed b d p hn hx hy]
    rw [List.head?_eq_getElem?, List.getElem?_map, List.getElem?_range (by omega)]
    rfl
  · refine ⟨stepPt d (lineStart b.size d p)
      (lineLen b.size d (lineStart b.size d p) - 1), ?_, endEdge_of_lineStart b.size d hp⟩
    rw [get_line_closed b d p hn hx hy, List.getLast?_eq_getElem?]
    rw [List.length_map, List.length_range]
    rw [List.getElem?_map, List.getElem?_range (by omega)]
    rfl

theorem get_line_round_trip_witness :
    (Point.new 1 2).isValid 5 = true ∧ (Point.new 3 2).isValid 5 = true
    ∧ onSameLine .horizontal (Point.new 1 2) (Point.new 3 2)
    ∧ (((⟨5, []⟩ : BoardArr).get_line .horizontal (Point.new 1 2)).2
        = ((⟨5, []⟩ : BoardArr).get_line .horizontal (Point.new 3 2)).2
      ∧ (∃ s, ((⟨5, []⟩ : BoardArr).get_line .horizontal (Point.new 1 2)).2.head? = some s
          ∧ onStartEdge 5 .horizontal s)
      ∧ (∃ e, ((⟨5, []⟩ : BoardArr).get_line .horizontal (Point.new 1 2)).2.getLast? = some e
          ∧ onEndEdge 5 .horizontal e)) :=
  ⟨by decide, by decide, rfl,
    @get_line_round_trip (⟨5, []⟩ : BoardArr) .horizontal
      (Point.new 1 2) (Point.new 3 2) (by decide) (by decide) rfl⟩

/-! Claim C5: overline dominance.  The geometric hypothesis is bridged to the
window scan through the closed form of the lines. -/

theorem stepPt_inj (d : Direction) (p0 : Point) {i j : Nat}
    (h : stepPt d p0 i = stepPt d p0 j) : i = j := by
  cases d with
  | horizontal =>
    have hx := congrArg Point.x h
    simp only [stepPt, Point.new] at hx
    omega
  | vertical =>
    have hy := congrArg Point.y h
    simp only [stepPt, Point.new] at hy
    omega
  | diagonal bottom =>
    cases bottom <;>
    · have hx := congrArg Point.x h
      simp only [stepPt, Point.new] at hx
      omega

theorem get_line_mem_all_lines (b : BoardArr) (d : Direction) {p : Point}
    (hp : p.isValid b.size = true) :
    (d, (b.get_line d p).2) ∈ b.all_lines := by
  obtain ⟨px, py, pn⟩ := p
  simp only [Point.isValid, Bool.and_eq_true, Bool.not_eq_true', decide_eq_true_eq] at hp
  obtain ⟨⟨hn, hx⟩, hy⟩ := hp
  subst hn
  unfold BoardArr.all_lines
  cases d with
  | horizontal =>
    refine List.mem_append_left _ (List.mem_append_left _ (List.mem_append_left _ ?_))
    refine List.mem_map.mpr ⟨py, List.mem_range.mpr hy, ?_⟩
    exact congrArg (fun l => (Direction.horizontal, l))
      (get_line_snd_eq_of_start b .horizontal rfl)
  | vertical =>
    refine List.mem_append_left _ (List.mem_append_left _ (List.mem_append_right _ ?_))
    refine List.mem_map.mpr ⟨px, List.mem_range.mpr hx, ?_⟩
    exact congrArg (fun l => (Direction.vertical, l))
      (get_line_snd_eq_of_start b .vertical rfl)
  | diagonal bottom =>
    cases bottom with
    | true =>
      refine List.mem_append_left _ (List.mem_append_right _ ?_)
      by_cases hcase : px + py < b.size
      · refine mem_foldr_cons2 _ _ _ (List.range b.size)
          ⟨px + py, List.mem_range.mpr (by omega), Or.inl ?_⟩
        refine congrArg (fun l => (Direction.diagonal true, l))
          (get_line_snd_eq_of_start b (.diagonal true) ?_)
        simp only [lineStart, lineIdx, Point.new, Point.mk.injEq]
        and_intros <;> first | omega | trivial
      · refine mem_foldr_cons2 _ _ _ (List.range b.size)
          ⟨px + py - b.size, List.mem_range.mpr (by omega), Or.inr ?_⟩
        refine congrArg (fun l => (Direction.diagonal true, l))
          (get_line_snd_eq_of_start b (.diagonal true) ?_)
        simp only [lineStart, lineIdx, Point.new, Point.mk.injEq]
        and_intros <;> first | omega | trivial
    | false =>
      refine List.mem_append_right _ ?_
      by_cases hcase : px ≤ py
      · refine mem_foldr_cons2 _ _ _ (List.range b.size)
          ⟨b.size - 1 - (py - px), List.mem_range.mpr (by omega), Or.inl ?_⟩
        refine congrArg (fun l => (Direction.diagonal false, l))
          (get_line_snd_eq_of_start b (.diagonal false) ?_)
        simp only [lineStart, lineIdx, Point.new, Point.mk.injEq]
        and_intros <;> first | omega | trivial
      · refine mem_foldr_cons2 _ _ _ (List.range b.size)
          ⟨px - py - 1, List.mem_range.mpr (by omega), Or.inr ?_⟩
        refine congrArg (fun l => (Direction.diagonal false, l))
          (get_line_snd_eq_of_start b (.diagonal false) ?_)
        simp only [lineStart, lineIdx, Point.new, Point.mk.injEq]
        and_intros <;> first | omega | trivial

theorem windows_mem {α : Type} (k : Nat) (l : List α) (i : Nat)
    (h : i + k ≤ l.length) : (l.drop i).take k ∈ windows k l := by
  unfold windows
  exact List.mem_map.mpr ⟨i, List.mem_range.mpr (by omega), rfl⟩

theorem take_drop_map_range {α : Type} (h : Nat → α) (len i k : Nat)
    (hik : i + k ≤ len) :
    (((List.range len).map h).drop i).take k
      = (List.range k).map (fun j => h (i + j)) := by
  have h1 : len = i + (len - i) := by omega
  rw [h1, List.range_add i (len - i), List.map_append, List.drop_left' (by simp)]
  rw [List.map_map]
  have h2 : len - i = k + (len - i - k) := by omega
  rw [h2, List.range_add k (len - i - k), List.map_append, List.take_left' (by simp)]
  exact List.map_congr_left fun j hj => rfl

theorem classified_window (b : BoardArr) (stone : Stone) (d : Direction) (st : Point)
    (len idx k : Nat) (hik : idx + k ≤ len) :
    (([((S.border), nullPoint), ((S.border), nullPoint)]
        ++ ((List.range len).map (stepPt d st)).map
            (fun p => (classifyCell stone (b.getStone p), p))
        ++ [((S.border), nullPoint), ((S.border), nullPoint)]).drop (idx + 2)).take k
    = (List.range k).map
        (fun j => (classifyCell stone (b.getStone (stepPt d st (idx + j))),
          stepPt d st (idx + j))) := by
  rw [List.map_map]
  show ((((S.border, nullPoint) :: (S.border, nullPoint) ::
      ((List.range len).map
          ((fun p => (classifyCell stone (b.getStone p), p)) ∘ stepPt d st)
        ++ [(S.border, nullPoint), (S.border, nullPoint)])).drop (idx + 1 + 1)).take k)
    = _
  rw [List.drop_succ_cons, List.drop_succ_cons]
  rw [List.drop_append_of_le_length (by simp; omega)]
  rw [List.take_append_of_le_length (by simp; omega)]
  exact take_drop_map_range _ len idx k hik

theorem overlineStep_mono {q : Point} (acc : List Point) (w : List (S × Point))
    (h : q ∈ acc) : q ∈ overlineStep acc w := by
  unfold overlineStep
  split <;> first | exact mem_insertOnce_of_mem _ h | exact h

theorem overlineScan_mem (b : BoardArr) {q : Point} (hq : makesOverline b q) :
    q ∈ overlineScan .black (classifiedLines b .black) := by
  obtain ⟨hqe, hqn, d, p0, hp0n, hdy, hvalid, ⟨j, hj, hjq⟩, hcol⟩ := hq
  have hp0v : p0.isValid b.size = true := by
    have h0 := hvalid 0 (by omega)
    obtain ⟨px, py, pn⟩ := p0
    have hpn : pn = false := hp0n
    cases d with
    | horizontal =>
      simp only [stepPt, Point.new, Point.isValid, Bool.and_eq_true, Bool.not_eq_true',
        decide_eq_true_eq] at h0 ⊢
      obtain ⟨⟨h00, h0x⟩, h0y⟩ := h0
      exact ⟨⟨hpn, by omega⟩, by omega⟩
    | vertical =>
      simp only [stepPt, Point.new, Point.isValid, Bool.and_eq_true, Bool.not_eq_true',
        decide_eq_true_eq] at h0 ⊢
      obtain ⟨⟨h00, h0x⟩, h0y⟩ := h0
      exact ⟨⟨hpn, by omega⟩, by omega⟩
    | diagonal bottom =>
      cases bottom <;>
      · simp only [stepPt, Point.new, Point.isValid, Bool.and_eq_true, Bool.not_eq_true',
          decide_eq_true_eq] at h0 ⊢
        obtain ⟨⟨h00, h0x⟩, h0y⟩ := h0
        exact ⟨⟨hpn, by omega⟩, by omega⟩
  obtain ⟨hn, hx, hy, hstep, hdg⟩ := lineStart_spec b.size d hp0v
  have hstepi : ∀ i : Nat, stepPt d (lineStart b.size d p0) (lineIdx b.size d p0 + i)
      = stepPt d p0 i := by
    intro i
    rw [← stepPt_stepPt, hstep]
  have hsty : d = Direction.diagonal true →
      (lineStart b.size d p0).y = p0.y + lineIdx b.size d p0 := by
    intro hdt
    subst hdt
    rfl
  have hlt : ∀ i : Nat, i < 6 →
      lineIdx b.size d p0 + i < lineLen b.size d (lineStart b.size d p0) := by
    intro i hi
    refine (stepPt_valid_iff b.size d _ hn hx hy _ ?_).mp ?_
    · intro hdt
      have h5 := hdy hdt
      have hy2 := hsty hdt
      omega
    · rw [hstepi i]
      exact hvalid i hi
  have hclmem : (d, [((S.border), nullPoint), ((S.border), nullPoint)]
      ++ (b.get_line d p0).2.map (fun p => (classifyCell .black (b.getStone p), p))
      ++ [((S.border), nullPoint), ((S.border), nullPoint)]) ∈ classifiedLines b .black := by
    unfold classifiedLines
    exact List.mem_map.mpr ⟨(d, (b.get_line d p0).2), get_line_mem_all_lines b d hp0v, rfl⟩
  have hwin : (([((S.border), nullPoint), ((S.border), nullPoint)]
      ++ (b.get_line d p0).2.map (fun p => (classifyCell .black (b.getStone p), p))
      ++ [((S.border), nullPoint), ((S.border), nullPoint)]).drop
        (lineIdx b.size d p0 + 2)).take 6
      ∈ windows 6 ([((S.border), nullPoint), ((S.border), nullPoint)]
      ++ (b.get_line d p0).2.map (fun p => (classifyCell .black (b.getStone p), p))
      ++ [((S.border), nullPoint), ((S.border), nullPoint)]) := by
    apply windows_mem
    rw [get_line_closed b d p0 hn hx hy]
    have h5 := hlt 5 (by omega)
    simp only [List.length_append, List.length_map, List.length_range, List.length_cons,
      List.length_nil]
    omega
  have hwe : (([((S.border), nullPoint), ((S.border), nullPoint)]
      ++ (b.get_line d p0).2.map (fun p => (classifyCell .black (b.getStone p), p))
      ++ [((S.border), nullPoint), ((S.border), nullPoint)]).drop
        (lineIdx b.size d p0 + 2)).take 6
      = (List.range 6).map (fun i =>
          (classifyCell .black (b.getStone (stepPt d p0 i)), stepPt d p0 i)) := by
    rw [get_line_closed b d p0 hn hx hy]
    rw [classified_window b .black d (lineStart b.size d p0)
      (lineLen b.size d (lineStart b.size d p0)) (lineIdx b.size d p0) 6
      (by have h5 := hlt 5 (by omega); omega)]
    refine List.map_congr_left fun i hi => ?_
    rw [hstepi i]
  have hrange6 : (List.range 6).map (fun i =>
      (classifyCell .black (b.getStone (stepPt d p0 i)), stepPt d p0 i))
      = [(classifyCell .black (b.getStone (stepPt d p0 0)), stepPt d p0 0),
         (classifyCell .black (b.getStone (stepPt d p0 1)), stepPt d p0 1),
         (classifyCell .black (b.getStone (stepPt d p0 2)), stepPt d p0 2),
         (classifyCell .black (b.getStone (stepPt d p0 3)), stepPt d p0 3),
         (classifyCell .black (b.getStone (stepPt d p0 4)), stepPt d p0 4),
         (classifyCell .black (b.getStone (stepPt d p0 5)), stepPt d p0 5)] := rfl
  have hblack : ∀ i : Nat, i < 6 → i ≠ j → b.getStone (stepPt d p0 i) = .black := by
    intro i hi hij
    rcases hcol i hi with he | hb
    · exact absurd (stepPt_inj d p0 (he.trans hjq.symm)) hij
    · exact hb
  rw [show overlineScan .black (classifiedLines b .black)
      = (classifiedLines b .black).foldl
          (fun acc dl => (windows 6 dl.2).foldl overlineStep acc) [] from rfl]
  refine @foldl_establish (List Point) (Direction × List (S × Point))
    (fun acc => q ∈ acc)
    (fun acc dl => (windows 6 dl.2).foldl overlineStep acc)
    (fun acc dl hacc => foldl_preserve (fun a w ha => overlineStep_mono a w ha) _ acc hacc)
    (classifiedLines b .black) _ hclmem (fun acc => ?_) []
  refine @foldl_establish (List Point) (List (S × Point)) (fun a => q ∈ a) overlineStep
    (fun a w ha => overlineStep_mono a w ha)
    _ _ hwin (fun a => ?_) acc
  rw [hwe, hrange6]
  interval_cases j
  · rw [hjq, hqe, hblack 1 (by omega) (by omega), hblack 2 (by omega) (by omega),
      hblack 3 (by omega) (by omega), hblack 4 (by omega) (by omega),
      hblack 5 (by omega) (by omega)]
    exact self_mem_insertOnce q a
  · rw [hjq, hqe, hblack 0 (by omega) (by omega), hblack 2 (by omega) (by omega),
      hblack 3 (by omega) (by omega), hblack 4 (by omega) (by omega),
      hblack 5 (by omega) (by omega)]
    exact self_mem_insertOnce q a
  · rw [hjq, hqe, hblack 0 (by omega) (by omega), hblack 1 (by omega) (by omega),
      hblack 3 (by omega) (by omega), hblack 4 (by omega) (by omega),
      hblack 5 (by omega) (by omega)]
    exact self_mem_insertOnce q a
  · rw [hjq, hqe, hblack 0 (by omega) (by omega), hblack 1 (by omega) (by omega),
      hblack 2 (by omega) (by omega), hblack 4 (by omega) (by omega),
      hblack 5 (by omega) (by omega)]
    exact self_mem_insertOnce q a
  · rw [hjq, hqe, hblack 0 (by omega) (by omega), hblack 1 (by omega) (by omega),
      hblack 2 (by omega) (by omega), hblack 3 (by omega) (by omega),
      hblack 5 (by omega) (by omega)]
    exact self_mem_insertOnce q a
  · rw [hjq, hqe, hblack 0 (by omega) (by omega), hblack 1 (by omega) (by omega),
      hblack 2 (by omega) (by omega), hblack 3 (by omega) (by omega),
      hblack 4 (by omega) (by omega)]
    exact self_mem_insertOnce q a

/-- C5: for every board evaluated for Black (any restriction, any fuel), a
point whose occupation by Black would make six or more in a row is in the
forbidden set and is not the placement point of any reported
StraightFour/ClosedFour/BrokenFour condition. -/
theorem overline_dominance (fuel : Nat) (b : BoardArr) (only : Option (List Point))
    {q : Point} (hq : makesOverline b q) :
    q ∈ (renjuConditionsF fuel b .black only).forbidden
    ∧ ∀ c ∈ (renjuConditionsF fuel b .black only).conditions,
        c.isFourShape = true → c.place ≠ q := by
  have hover : q ∈ overlineScan .black (classifiedLines b .black) := overlineScan_mem b hq
  have key : ∀ recur, q ∈ (renjuBody recur b .black only).forbidden
      ∧ ∀ c ∈ (renjuBody recur b .black only).conditions,
          c.isFourShape = true → c.place ≠ q := by
    intro recur
    constructor
    · unfold renjuBody
      dsimp only
      exact mem_foldl_insertOnce.mpr (Or.inl (applyFours_fst_mem .black _ _ _ hover))
    · intro c hcc hshape hplace
      unfold renjuBody at hcc
      dsimp only at hcc
      rcases resolveFold_conditions recur b .black _ _ _ hcc with h | ⟨kv2, hkv2, p, hp⟩
      · rcases applyFours_conditions .black _ _ _ h with h3 | ⟨kv3, hkv3, hc3, _⟩
        · have hfive := (fivesScan_inv b .black (classifiedLines_entryOK b .black) c h3).1
          rw [fourShape_not_five hshape] at hfive
          exact Bool.noConfusion hfive
        · have h4 := (foursScan_inv .black only _ _).1 _ hkv3 c hc3
          have hk : kv3.1 = q := h4.1.symm.trans hplace
          exact h4.2.2 (hk ▸ hover)
      · have ht := (threesScan_inv b .black only _ _
          (classifiedLines_entryOK b .black)).1 _ hkv2 (c, p) hp
        have h3 := ht.2.1
        rw [threeShape_not_fourShape h3] at hshape
        exact Bool.noConfusion hshape
  cases fuel with
  | zero => exact key _
  | succ n => exact key _

theorem overline_dominance_witness :
    makesOverline boardOverline (Point.new 3 0)
    ∧ (Point.new 3 0 ∈ (renjuConditionsF 1 boardOverline .black none).forbidden
      ∧ ∀ c ∈ (renjuConditionsF 1 boardOverline .black none).conditions,
          c.isFourShape = true → c.place ≠ Point.new 3 0) := by
  have hov : makesOverline boardOverline (Point.new 3 0) := by
    refine ⟨by decide, rfl, Direction.horizontal, Point.new 0 0, rfl,
      fun h => Direction.noConfusion h, ?_, ⟨3, by omega, by decide⟩, ?_⟩
    · intro i hi
      interval_cases i <;> decide
    · intro i hi
      interval_cases i <;> first | exact Or.inl (by decide) | exact Or.inr (by decide)
  exact ⟨hov, overline_dominance 1 boardOverline none hov⟩

/-! Claim C3: the concrete double-three scenario. -/

set_option maxRecDepth 1000000 in
/-- C3: on an empty 15×15 board with Black stones at H8, G8, G9 and H10
(1-indexed column-letter/row-number; in the repository's coordinates the
column letter is x = 0.. from A and y = 15 − row, so these are (7,7), (6,7),
(6,6), (7,5)), evaluating for Black yields a forbidden set that is exactly
{F8 = (5,7)}: F8 is a forbidden double-three and no other point is
forbidden. -/
theorem black_forbidden_exactly_F8 :
    (boardC3.renju_conditions .black none).forbidden = [Point.new 5 7] := by
  decide

/-! Claim C2: the restriction argument does change reported conditions. -/

set_option maxRecDepth 1000000 in
/-- C2: the restriction argument is not a pure performance filter.  On
`boardDoubleFour`, evaluated for Black, the unrestricted call marks (6,7)
forbidden (a double-four) and reports no condition placed there, while the
call restricted to {(6,3)} reports a straight four placed at (6,7) on the
vertical line through (6,3) — a line touching the restriction — and leaves
the forbidden set empty.  The restriction hides the horizontal window that
contributes the second four at (6,7), so the double-four ban is missed. -/
theorem restriction_divergence :
    sfAtDoubleFour ∈
        (boardDoubleFour.renju_conditions .black (some [Point.new 6 3])).conditions
    ∧ Point.new 6 7 ∉
        (boardDoubleFour.renju_conditions .black (some [Point.new 6 3])).forbidden
    ∧ Point.new 6 7 ∈ (boardDoubleFour.renju_conditions .black none).forbidden
    ∧ (boardDoubleFour.renju_conditions .black none).conditions.all
        (fun c => decide (c.place ≠ Point.new 6 7)) = true := by
  decide

/-! Claim C6, the refuting part: a five suppresses neither a four sharing a
point with it nor a three sharing a stone with it. -/

set_option maxRecDepth 1000000 in
/-- C6 counterexample: on `boardFiveFour` the White evaluation reports both
the five `fiveShared` and the straight four `fourShared`, and the point
(5,5) belongs to the stones of both; on `boardFiveThreeShare` it reports
both a five and an unbroken three whose stones share the point (2,5).  So a
point of a detected Five is simultaneously reported as part of a Four
condition at that coordinate, and on another board as part of a Three
condition at that coordinate. -/
theorem five_does_not_suppress_lesser_shapes :
    (fiveShared ∈ (boardFiveFour.renju_conditions .white none).conditions
    ∧ fourShared ∈ (boardFiveFour.renju_conditions .white none).conditions
    ∧ fiveShared.isFive = true ∧ fourShared.isFourShape = true
    ∧ Point.new 5 5 ∈ fiveShared.stones ∧ Point.new 5 5 ∈ fourShared.stones)
    ∧ ((RenjuCondition.five .horizontal
          [Point.new 0 5, Point.new 1 5, Point.new 2 5, Point.new 3 5, Point.new 4 5]
          (Point.new 0 5))
        ∈ (boardFiveThreeShare.renju_conditions .white none).conditions
      ∧ (RenjuCondition.unbrokenThree .vertical
          [Point.new 2 4, Point.new 2 5, Point.new 2 6] (Point.new 2 4))
        ∈ (boardFiveThreeShare.renju_conditions .white none).conditions
      ∧ (RenjuCondition.five .horizontal
          [Point.new 0 5, Point.new 1 5, Point.new 2 5, Point.new 3 5, Point.new 4 5]
          (Point.new 0 5)).isFive = true
      ∧ (RenjuCondition.unbrokenThree .vertical
          [Point.new 2 4, Point.new 2 5, Point.new 2 6] (Point.new 2 4)).isThreeShape = true
      ∧ Point.new 2 5 ∈ (RenjuCondition.five .horizontal
          [Point.new 0 5, Point.new 1 5, Point.new 2 5, Point.new 3 5, Point.new 4 5]
          (Point.new 0 5)).stones
      ∧ Point.new 2 5 ∈ (RenjuCondition.unbrokenThree .vertical
          [Point.new 2 4, Point.new 2 5, Point.new 2 6] (Point.new 2 4)).stones) := by
  decide

/-! Claim C8: the RenLib header validation. -/

/-- C8: `validate_lib` succeeds exactly on a 20-byte header of the RenLib
magic bytes with version pair (3,0) (giving `V30`) or (3,4) (giving `V34`);
with correct magic but any other version pair it returns the
unsupported-version error carrying that pair, and on any other header it
returns the unsupported-format error. -/
theorem validateLib_spec :
    (∀ (h : List Nat) (v : Version),
      validateLib h = .ok v ↔
        ((v = .V30 ∧ h = magicHeader 3 0) ∨ (v = .V34 ∧ h = magicHeader 3 4)))
    ∧ (∀ (h : List Nat) (a b : Nat),
      validateLib h = .error (.versionNotSupported a b) ↔
        (h = magicHeader a b ∧ ¬(a = 3 ∧ b = 0) ∧ ¬(a = 3 ∧ b = 4)))
    ∧ (∀ h : List Nat,
      validateLib h = .error .notSupported ↔ ∀ a b : Nat, h ≠ magicHeader a b) := by
  refine ⟨fun h v => ?_, fun h a b => ?_, fun h => ?_⟩
  · constructor
    · intro hv
      unfold validateLib at hv
      split at hv
      · split at hv
        · split at hv
          · rcases hv with ⟨⟩; simp_all [magicHeader]
          · split at hv
            · rcases hv with ⟨⟩; simp_all [magicHeader]
            · exact absurd hv (by simp)
        · exact absurd hv (by simp)
      · exact absurd hv (by simp)
    · rintro (⟨rfl, rfl⟩ | ⟨rfl, rfl⟩) <;> rfl
  · constructor
    · intro hv
      unfold validateLib at hv
      split at hv
      · split at hv
        · split at hv
          · exact absurd hv (by simp)
          · split at hv
            · exact absurd hv (by simp)
            · rcases hv with ⟨⟩; simp_all [magicHeader]
        · exact absurd hv (by simp)
      · exact absurd hv (by simp)
    · rintro ⟨rfl, hn0, hn4⟩
      unfold validateLib
      simp [magicHeader, hn0, hn4]
  · constructor
    · intro hv
      unfold validateLib at hv
      split at hv
      · split at hv
        · split at hv
          · exact absurd hv (by simp)
          · split at hv
            · exact absurd hv (by simp)
            · exact absurd hv (by simp)
        · intro a b heq
          rename_i hmagic
          simp [magicHeader] at heq
          obtain ⟨h0, h1, h2, h3, h4, h5, h6, h7, h8e, h9e, h10, h11, h12, h13, h14, h15,
            h16, h17, h18, h19⟩ := heq
          subst h0 h1 h2 h3 h4 h5 h6 h7 h10 h11 h12 h13 h14 h15 h16 h17 h18 h19
          simp at hmagic
      · rename_i hshape
        intro a b heq
        exact hshape 255 82 101 110 76 105 98 255 a b
          255 255 255 255 255 255 255 255 255 255 heq
    · intro hall
      unfold validateLib
      split
      · rename_i b0 b1 b2 b3 b4 b5 b6 b7 majv minv b10 b11 b12 b13 b14 b15 b16 b17 b18 b19
        split
        · rename_i hmagic
          obtain ⟨e0, e1, e2, e3, e4, e5, e6, e7, e10, e11, e12, e13, e14, e15, e16, e17,
            e18, e19⟩ := hmagic
          subst e0 e1 e2 e3 e4 e5 e6 e7 e10 e11 e12 e13 e14 e15 e16 e17 e18 e19
          exact absurd rfl (hall majv minv)
        · rfl
      · rfl

/-! Claim C9: the coordinate-byte decoder. -/

/-- C9 counterexample: the byte 0x11 nibble-packs the 1-based pair
(x, y) = (1, 1), whose decoded 0-based point would be (0,0); `byte_to_point`
adjusts only the low nibble and returns (0,1) — the high nibble is used as
`y` unadjusted. -/
theorem byteToPoint_y_not_one_based :
    byteToPoint 0x11 = .ok (Point.new 0 1)
    ∧ byteToPoint 0x11 ≠ .ok (Point.new 0 0) := by
  decide

/-- C9 amended: `byte_to_point` fails exactly on the reserved byte 0x00 (as
an `Other` error); on any byte packing a 1-based x in the low nibble and a
row value y in the high nibble it returns x − 1 paired with y taken
verbatim; and the record loop of `parse_v3x` maps the byte 0x00 to the null
point. -/
theorem byteToPoint_spec :
    (∀ x, x < 16 → ∀ y, y < 16 → 1 ≤ x →
      byteToPoint (16 * y + x) = .ok (Point.new (x - 1) y))
    ∧ (∀ byte : Nat, byteToPoint byte = .error (.other "Underflowed position") ↔ byte = 0)
    ∧ recordPoint 0 = nullPoint := by
  refine ⟨by decide, fun byte => ?_, by decide⟩
  unfold byteToPoint
  split <;> simp_all

/-- Witness for the amended C9 statement at the byte 0x78 = H8 of the
repository's tests. -/
theorem byteToPoint_spec_witness :
    byteToPoint (16 * 7 + 8) = .ok (Point.new 7 7)
    ∧ byteToPoint 0 = .error (.other "Underflowed position") :=
  ⟨byteToPoint_spec.1 8 (by decide) 7 (by decide) (by decide),
   (byteToPoint_spec.2.1 0).mpr rfl⟩

/-! Claim C10: the legacy `line` function. -/

theorem collect_mem (b : Legacy.Board) (color : Stone) :
    ∀ (cells : List (Int × Int × Int)) {o : Int}, o ∈ Legacy.collect b color cells →
      ∃ c ∈ cells, c.2.2 = o ∧ b.getIxy c.1 c.2.1 = some color := by
  intro cells
  induction cells with
  | nil =>
    intro o ho
    exact absurd ho (List.not_mem_nil o)
  | cons c rest ih =>
    intro o ho
    unfold Legacy.collect at ho
    cases hg : b.getIxy c.1 c.2.1 with
    | none =>
      rw [hg] at ho
      exact absurd ho (List.not_mem_nil o)
    | some oc =>
      rw [hg] at ho
      dsimp only at ho
      by_cases hc : oc = color
      · rw [if_pos hc] at ho
        rcases List.mem_cons.mp ho with rfl | ho2
        · exact ⟨c, List.mem_cons_self c rest, rfl, hc ▸ hg⟩
        · obtain ⟨c2, hc2, ho3, hcol⟩ := ih ho2
          exact ⟨c2, List.mem_cons_of_mem _ hc2, ho3, hcol⟩
      · rw [if_neg hc] at ho
        split at ho
        · exact absurd ho (List.not_mem_nil o)
        · obtain ⟨c2, hc2, ho3, hcol⟩ := ih ho
          exact ⟨c2, List.mem_cons_of_mem _ hc2, ho3, hcol⟩

theorem right_arm_cell (b : Legacy.Board) (m : Legacy.BoardMarker) {c : Int × Int × Int}
    (hc : c ∈ Legacy.rightCells b m) :
    Legacy.offsetCell m .horizontal c.2.2 = (c.1, c.2.1) := by
  obtain ⟨i, hi, rfl⟩ := List.mem_map.mp hc
  simp [Legacy.offsetCell, Prod.mk.injEq]

theorem left_arm_cell (m : Legacy.BoardMarker) {c : Int × Int × Int}
    (hc : c ∈ Legacy.leftCells m) :
    Legacy.offsetCell m .horizontal c.2.2 = (c.1, c.2.1) := by
  obtain ⟨i, hi, rfl⟩ := List.mem_map.mp hc
  simp [Legacy.offsetCell, Prod.mk.injEq]

theorem down_arm_cell (b : Legacy.Board) (m : Legacy.BoardMarker) {c : Int × Int × Int}
    (hc : c ∈ Legacy.downCells b m) :
    Legacy.offsetCell m .vertical c.2.2 = (c.1, c.2.1) := by
  obtain ⟨i, hi, rfl⟩ := List.mem_map.mp hc
  simp [Legacy.offsetCell, Prod.mk.injEq]

theorem up_arm_cell (m : Legacy.BoardMarker) {c : Int × Int × Int}
    (hc : c ∈ Legacy.upCells m) :
    Legacy.offsetCell m .vertical c.2.2 = (c.1, c.2.1) := by
  obtain ⟨i, hi, rfl⟩ := List.mem_map.mp hc
  simp [Legacy.offsetCell, Prod.mk.injEq]

theorem diag_down_arm_cell (b : Legacy.Board) (m : Legacy.BoardMarker) {c : Int × Int × Int}
    (hc : c ∈ Legacy.diagDownCells b m) :
    Legacy.offsetCell m .diagonal c.2.2 = (c.1, c.2.1) := by
  obtain ⟨i, hi, rfl⟩ := List.mem_map.mp hc
  simp [Legacy.offsetCell, Prod.mk.injEq]

theorem diag_up_arm_cell (b : Legacy.Board) (m : Legacy.BoardMarker) {c : Int × Int × Int}
    (hc : c ∈ Legacy.diagUpCells b m) :
    Legacy.offsetCell m .diagonal c.2.2 = (c.1, c.2.1) := by
  obtain ⟨i, hi, rfl⟩ := List.mem_map.mp hc
  simp only [Legacy.offsetCell, Prod.mk.injEq]
  exact ⟨by omega, by omega⟩

/-- C10: the legacy `line` function fails exactly on a null marker point or
the unhandled `AntiDiagonal` direction; on every non-null marker and a
handled direction it succeeds, and every offset of the returned line
addresses a cell holding the marker's color. -/
theorem line_error_ok (b : Legacy.Board) (m : Legacy.BoardMarker) (d : Legacy.Direction) :
    (Legacy.line b m d = .error ()
      ↔ m.point.is_null = true ∨ d = Legacy.Direction.antiDiagonal)
    ∧ (m.point.is_null = false → d ≠ Legacy.Direction.antiDiagonal →
        ∃ l, Legacy.line b m d = .ok l
          ∧ ∀ o ∈ l.offsets,
              b.getIxy (Legacy.offsetCell m d o).1 (Legacy.offsetCell m d o).2
                = some m.color) := by
  constructor
  · unfold Legacy.line
    cases hnull : m.point.is_null with
    | true =>
      rw [if_pos rfl]
      exact ⟨fun _ => Or.inl rfl, fun _ => rfl⟩
    | false =>
      rw [if_neg (by simp)]
      cases d with
      | antiDiagonal => exact ⟨fun _ => Or.inr rfl, fun _ => rfl⟩
      | horizontal =>
        constructor
        · intro h
          exact Except.noConfusion h
        · rintro (h | h)
          · exact absurd h (by simp)
          · exact Legacy.Direction.noConfusion h
      | vertical =>
        constructor
        · intro h
          exact Except.noConfusion h
        · rintro (h | h)
          · exact absurd h (by simp)
          · exact Legacy.Direction.noConfusion h
      | diagonal =>
        constructor
        · intro h
          exact Except.noConfusion h
        · rintro (h | h)
          · exact absurd h (by simp)
          · exact Legacy.Direction.noConfusion h
  · intro hnn hna
    unfold Legacy.line
    rw [if_neg (by simp [hnn])]
    cases d with
    | antiDiagonal => exact absurd rfl hna
    | horizontal =>
      refine ⟨_, rfl, ?_⟩
      intro o ho
      dsimp only at ho
      rcases mem_foldl_insertOnce.mp ho with h0 | hmem
      · exact absurd h0 (List.not_mem_nil o)
      · rcases List.mem_append.mp hmem with harm | harm
        · obtain ⟨c, hc, hoc, hcol⟩ := collect_mem b m.color _ harm
          rw [← hoc, right_arm_cell b m hc]
          exact hcol
        · obtain ⟨c, hc, hoc, hcol⟩ := collect_mem b m.color _ harm
          rw [← hoc, left_arm_cell m hc]
          exact hcol
    | vertical =>
      refine ⟨_, rfl, ?_⟩
      intro o ho
      dsimp only at ho
      rcases mem_foldl_insertOnce.mp ho with h0 | hmem
      · exact absurd h0 (List.not_mem_nil o)
      · rcases List.mem_append.mp hmem with harm | harm
        · obtain ⟨c, hc, hoc, hcol⟩ := collect_mem b m.color _ harm
          rw [← hoc, down_arm_cell b m hc]
          exact hcol
        · obtain ⟨c, hc, hoc, hcol⟩ := collect_mem b m.color _ harm
          rw [← hoc, up_arm_cell m hc]
          exact hcol
    | diagonal =>
      refine ⟨_, rfl, ?_⟩
      intro o ho
      dsimp only at ho
      rcases mem_foldl_insertOnce.mp ho with h0 | hmem
      · exact absurd h0 (List.not_mem_nil o)
      · rcases List.mem_append.mp hmem with harm | harm
        · obtain ⟨c, hc, hoc, hcol⟩ := collect_mem b m.color _ harm
          rw [← hoc, diag_down_arm_cell b m hc]
          exact hcol
        · obtain ⟨c, hc, hoc, hcol⟩ := collect_mem b m.color _ harm
          rw [← hoc, diag_up_arm_cell b m hc]
          exact hcol

theorem line_error_ok_witness :
    legacyMarker.point.is_null = false
    ∧ (Legacy.line legacyBoard legacyMarker .horizontal = .error ()
        ↔ legacyMarker.point.is_null = true
          ∨ Legacy.Direction.horizontal = Legacy.Direction.antiDiagonal)
    ∧ ∃ l, Legacy.line legacyBoard legacyMarker .horizontal = .ok l
        ∧ ∀ o ∈ l.offsets,
            legacyBoard.getIxy (Legacy.offsetCell legacyMarker .horizontal o).1
                (Legacy.offsetCell legacyMarker .horizontal o).2
              = some legacyMarker.color :=
  ⟨rfl, (line_error_ok legacyBoard legacyMarker .horizontal).1,
    (line_error_ok legacyBoard legacyMarker .horizontal).2 rfl
      (fun h => Legacy.Direction.noConfusion h)⟩

end Renju
